import Mathlib

/-!
Verification of the string-clustering repository (jaro/jaro-winkler string
distance, a memoized pairwise distance matrix, and a k-medoids clustering
engine).  Python floats are modelled as rationals; Python `round(x, 6)` is
modelled as round-half-to-even at six decimal places.
-/

/-- Round-half-to-even to the nearest integer, as Python `round` does. -/
def roundHalfEven (q : ℚ) : ℤ :=
  let f : ℤ := Int.floor q
  let frac : ℚ := q - f
  if frac < 1/2 then f
  else if 1/2 < frac then f + 1
  else if f % 2 = 0 then f else f + 1

/-- Python `round(x, 6)`: round to six decimal places, ties to even. -/
def round6 (q : ℚ) : ℚ := (roundHalfEven (q * 1000000) : ℚ) / 1000000

/-! ## stringdist.py -/

/-- `JARO_WEIGHT_STRING_A` from stringdist.py. -/
def JARO_WEIGHT_STRING_A : ℚ := 1/3
/-- `JARO_WEIGHT_STRING_B` from stringdist.py. -/
def JARO_WEIGHT_STRING_B : ℚ := 1/3
/-- `JARO_WEIGHT_TRANSPOSITIONS` from stringdist.py. -/
def JARO_WEIGHT_TRANSPOSITIONS : ℚ := 1/3
/-- `JARO_WINKLER_PREFIX_SIZE` from stringdist.py. -/
def JARO_WINKLER_PREFIX_SIZE : ℕ := 4
/-- `JARO_WINKLER_SCALING_FACTOR` from stringdist.py. -/
def JARO_WINKLER_SCALING_FACTOR : ℚ := 1/10
/-- `JARO_WINKLER_BOOST_THRESHOLD` from stringdist.py. -/
def JARO_WINKLER_BOOST_THRESHOLD : ℚ := 7/10

/-- State of the match-finding loop in `jaroDistance`: the `a_match` and
`b_match` boolean arrays and the `char_matches` counter. -/
structure MatchState where
  aM : List Bool
  bM : List Bool
  cnt : ℕ
  deriving DecidableEq, Repr

/-- The inner `for b_idx in range(min_idx, max_idx)` loop of `jaroDistance`:
starting at index `j`, scan `n` consecutive indices of `b` for the first
position that is not yet matched and holds character `c`. -/
def findFrom (b : List Char) (bm : List Bool) (c : Char) : ℕ → ℕ → Option ℕ
  | _, 0 => none
  | j, n + 1 =>
    if bm.getD j false = false ∧ b.getD j 'A' = c then some j
    else findFrom b bm c (j + 1) n

/-- The window search of `jaroDistance`: first unmatched occurrence of `c`
in `b` at an index in `[lo, hi)`. -/
def findUnmatched (b : List Char) (bm : List Bool) (c : Char) (lo hi : ℕ) :
    Option ℕ :=
  findFrom b bm c lo (hi - lo)

/-- The outer `for a_idx in range(a_len)` loop of `jaroDistance`, walking the
remaining characters of `a` with `i` the current index.  `hi ≤ lo` is the
`min_idx >= max_idx` break. -/
def matchLoopAux (b : List Char) (r : ℕ) : List Char → ℕ → MatchState → MatchState
  | [], _, st => st
  | c :: rest, i, st =>
    let lo : ℕ := i - r
    let hi : ℕ := min (i + r + 1) b.length
    if hi ≤ lo then st
    else
      match findUnmatched b st.bM c lo hi with
      | none => matchLoopAux b r rest (i + 1) st
      | some j =>
          matchLoopAux b r rest (i + 1)
            ⟨st.aM.set i true, st.bM.set j true, st.cnt + 1⟩

/-- The whole match-finding phase of `jaroDistance` over character lists. -/
def matchPhase (a b : List Char) (r : ℕ) : MatchState :=
  matchLoopAux b r a 0 ⟨List.replicate a.length false, List.replicate b.length false, 0⟩

/-- Indices of `true` entries of a boolean list in increasing order (the
`a_pos` / `b_pos` arrays of `jaroDistance`). -/
def truePositions (l : List Bool) : List ℕ :=
  (List.range l.length).filter (fun j => l.getD j false)

/-- The transposition count of `jaroDistance`: ranks at which the matched
character of `a` differs from the matched character of `b`. -/
def transCount (a b : List Char) (aPos bPos : List ℕ) : ℕ :=
  ((aPos.zip bPos).filter (fun p => ¬ (a.getD p.1 'A' = b.getD p.2 'A'))).length

/-- `jaroDistance` from stringdist.py, on character lists. -/
def jaroList (a b : List Char) : ℚ :=
  let aLen := a.length
  let bLen := b.length
  if aLen = 0 ∨ bLen = 0 then 0
  else
    let maxRange : ℕ := max aLen bLen / 2 - 1
    let st := matchPhase a b maxRange
    if st.cnt = 0 then 0
    else
      let aPos := truePositions st.aM
      let bPos := truePositions st.bM
      let t := transCount a b aPos bPos
      JARO_WEIGHT_STRING_A * st.cnt / aLen +
        JARO_WEIGHT_STRING_B * st.cnt / bLen +
        JARO_WEIGHT_TRANSPOSITIONS * ((st.cnt - t / 2 : ℕ) : ℚ) / st.cnt

/-- `jaroDistance(string_a, string_b)` from stringdist.py. -/
def jaroDistance (a b : String) : ℚ := jaroList a.data b.data

/-- The common-prefix scan of `jaroWinklerDistance`: number of leading
positions (up to the given bound) at which the two lists agree, stopping at
the first mismatch. -/
def leadingMatch : List Char → List Char → ℕ → ℕ
  | _, _, 0 => 0
  | [], _, _ => 0
  | _, [], _ => 0
  | c :: cs, d :: ds, n + 1 => if c = d then leadingMatch cs ds n + 1 else 0

/-- `jaroWinklerDistance(string_a, string_b)` from stringdist.py. -/
def jaroWinklerDistance (a b : String) : ℚ :=
  let distance := jaroDistance a b
  if JARO_WINKLER_BOOST_THRESHOLD < distance then
    let commonPre : ℕ := leadingMatch a.data b.data JARO_WINKLER_PREFIX_SIZE
    distance + JARO_WINKLER_SCALING_FACTOR * commonPre * (1 - distance)
  else distance

/-! ## clusterengine.py : DistanceMatrix -/

/-- Insert a value into the nested `distMap` dictionary
(`self.distMap[first][second] = v`). -/
def dmUpdate (m : String → String → Option ℚ) (a b : String) (v : ℚ) :
    String → String → Option ℚ :=
  fun x y => if x = a ∧ y = b then some v else m x y

/-- State of `DistanceMatrix.__init__`: the nested dictionary plus the list of
argument pairs on which the distance function has been evaluated so far (the
log is bookkeeping used to count evaluations; it does not affect `distMap`). -/
structure BuildState where
  distMap : String → String → Option ℚ
  evalLog : List (String × String)

/-- One iteration of the construction double loop of `DistanceMatrix.__init__`:
if the reverse direction already exists, store nothing; otherwise evaluate the
distance function, round to 6 decimals and store. -/
def buildStep (f : String → String → ℚ) (st : BuildState) (first second : String) :
    BuildState :=
  match st.distMap second first with
  | some _ => st
  | none =>
      ⟨dmUpdate st.distMap first second (round6 (f first second)),
        st.evalLog ++ [(first, second)]⟩

/-- The full construction double loop of `DistanceMatrix.__init__`. -/
def buildState (elems : List String) (f : String → String → ℚ) : BuildState :=
  elems.foldl (fun st first => elems.foldl (fun st second => buildStep f st first second) st)
    ⟨fun _ _ => none, []⟩

/-- The `DistanceMatrix` class: only the stored one-way distances matter for
lookups. -/
structure DistanceMatrix where
  distMap : String → String → Option ℚ

/-- `DistanceMatrix(elems, distanceFunc)`. -/
def DistanceMatrix.build (elems : List String) (f : String → String → ℚ) :
    DistanceMatrix :=
  ⟨(buildState elems f).distMap⟩

/-- `DistanceMatrix.dist`: direct lookup, then reverse lookup, then `-1`. -/
def DistanceMatrix.dist (dm : DistanceMatrix) (a b : String) : ℚ :=
  match dm.distMap a b with
  | some d => d
  | none =>
    match dm.distMap b a with
    | some d => d
    | none => -1

/-! ## clusterengine.py : ClusterEngine -/

/-- The Python exception kinds raised by the engine. -/
inductive PyError where
  | valueError
  | invalidStateError
  deriving DecidableEq, Repr

/-- The mutable state of a `ClusterEngine` object. -/
structure ClusterEngine where
  k : ℕ
  elems : List String
  result : Option (List (List String))
  distMat : DistanceMatrix

/-- `ClusterEngine.__init__(k, elems)`: the distance matrix is built eagerly
over the element list with `stringdist.jaroWinklerDistance`. -/
def ClusterEngine.init (k : ℕ) (elems : List String) : ClusterEngine :=
  ⟨k, elems, none, DistanceMatrix.build elems jaroWinklerDistance⟩

/-- Python `max` of a list of floats (the value; first element is the start
of the fold). -/
def pyMax : List ℚ → ℚ
  | [] => 0
  | x :: xs => xs.foldl max x

/-- Python `list.index(v)`: index of the first occurrence of `v`. -/
def idxOfQ : List ℚ → ℚ → ℕ
  | [], _ => 0
  | x :: xs, v => if x = v then 0 else idxOfQ xs v + 1

/-- `self.result[idx].append(e)`. -/
def appendAt : List (List String) → ℕ → String → List (List String)
  | [], _, _ => []
  | g :: gs, 0, e => (g ++ [e]) :: gs
  | g :: gs, n + 1, e => g :: appendAt gs n e

/-- One iteration of the assignment loop of `ClusterEngine.cluster`: a
non-medoid element joins the group of the closest (highest-similarity)
medoid, earlier group winning ties. -/
def assignOne (dm : DistanceMatrix) (medoids : List String)
    (result : List (List String)) (e : String) : List (List String) :=
  if e ∈ medoids then result
  else
    let eDists := medoids.map (fun m => dm.dist m e)
    let closestGroupIdx := idxOfQ eDists (pyMax eDists)
    appendAt result closestGroupIdx e

/-- One body of the convergence loop of `ClusterEngine.cluster`: re-seed one
group per medoid, then assign every non-medoid element. -/
def assignPass (dm : DistanceMatrix) (elems medoids : List String) :
    List (List String) :=
  elems.foldl (assignOne dm medoids) (medoids.map (fun m => [m]))

/-- `ClusterEngine.findNewMedoid`: the group member with the greatest summed
distance to all members of the group, first occurrence winning ties. -/
def findNewMedoid (dm : DistanceMatrix) (group : List String) : String :=
  let eachSumDists := group.map (fun m => (group.map (fun e => dm.dist m e)).sum)
  group.getD (idxOfQ eachSumDists (pyMax eachSumDists)) ""

/-- `collections.Counter(x)` for `x` either `None` or a list: `Counter(None)`
is the empty counter, so the comparison is order-insensitive,
duplicate-sensitive multiset equality. -/
def counterOf : Option (List String) → Multiset String
  | none => 0
  | some l => (l : Multiset String)

/-- The convergence loop of `ClusterEngine.cluster`, with explicit fuel;
`none` means the loop did not converge within `fuel` iterations. -/
def clusterLoop (dm : DistanceMatrix) (elems : List String) :
    ℕ → Option (List String) → List String → Option (List (List String)) →
    Option (Option (List (List String)))
  | 0, last, current, res =>
      if counterOf last = (current : Multiset String) then some res else none
  | fuel + 1, last, current, res =>
      if counterOf last = (current : Multiset String) then some res
      else
        let r := assignPass dm elems current
        clusterLoop dm elems fuel (some current) (r.map (findNewMedoid dm)) (some r)

/-- Outcome of a Python method call that may raise, together with the state
of the engine object afterwards. -/
inductive ClusterOutcome where
  | raised (err : PyError) (state : ClusterEngine)
  | finished (state : ClusterEngine)

/-- `ClusterEngine.cluster()`.  The randomly drawn `random.sample(self.elems,
self.k)` is passed explicitly as `sample`; `none` means the convergence loop
ran longer than `fuel` iterations. -/
def ClusterEngine.cluster (eng : ClusterEngine) (sample : List String)
    (fuel : ℕ) : Option ClusterOutcome :=
  if eng.elems.isEmpty then some (.raised .valueError eng)
  else
    match clusterLoop eng.distMat eng.elems fuel none sample none with
    | none => none
    | some res => some (.finished { eng with result := res })

/-- `random.sample(elems, k)`: `k` values drawn at distinct positions of
`elems`, in arbitrary order. -/
def IsSample (elems : List String) (k : ℕ) (s : List String) : Prop :=
  s.length = k ∧
    ∃ idxs : List (Fin elems.length), idxs.Nodup ∧ s = idxs.map (fun i => elems.get i)

/-- Python truthiness of `self.result` (`not self.result`): `None` and the
empty list are falsy. -/
def pyFalsyResult : Option (List (List String)) → Bool
  | none => true
  | some l => l.isEmpty

/-- Outcome of an accessor call: an exception or a returned value. -/
inductive CallResult (α : Type) where
  | raised (err : PyError)
  | ok (v : α)
  deriving DecidableEq, Repr

/-- The member lines rendered by `ClusterEngine.asText` for one group. -/
def renderGroup (g : List String) : String :=
  g.foldl (fun acc e => acc ++ "\t" ++ e ++ "\n") ""

/-- The text rendering built by `ClusterEngine.asText`. -/
def renderText (groups : List (List String)) : String :=
  (groups.enum).foldl
    (fun acc p => acc ++ "Group " ++ toString p.1 ++ ":\n" ++ renderGroup p.2) ""

/-- `ClusterEngine.asText()`. -/
def ClusterEngine.asText (eng : ClusterEngine) : CallResult String :=
  if pyFalsyResult eng.result then .raised .invalidStateError
  else .ok (renderText (eng.result.getD []))

/-- `ClusterEngine.asCSV()`: raises before a result is materialized, and
otherwise falls off the end of the function body, returning Python `None`. -/
def ClusterEngine.asCSV (eng : ClusterEngine) : CallResult (Option String) :=
  if pyFalsyResult eng.result then .raised .invalidStateError
  else .ok none

/-! ## Auxiliary definitions for the analysis of the construction log -/

/-- The evaluation pairs recorded during the construction pass for `first = x`
when the outer loop has already processed the prefix `P` of the element
list. -/
def passLog (full P : List String) (x : String) : List (String × String) :=
  (full.filter (fun y => !decide (y ∈ P))).map (fun y => (x, y))

/-- The evaluation pairs recorded by the remaining outer passes `R`, the
prefix `P` having been processed. -/
def logAux (full : List String) : List String → List String → List (String × String)
  | _, [] => []
  | P, x :: R => passLog full P x ++ logAux full (P ++ [x]) R

/-- How many entries of the log mention the unordered pair of `a` and `b`. -/
def countUnordered (log : List (String × String)) (a b : String) : ℕ :=
  log.countP (fun p => decide ((p.1 = a ∧ p.2 = b) ∨ (p.1 = b ∧ p.2 = a)))

/-! ## Auxiliary definitions for the symmetry analysis of the match loop -/

/-- The match loop without the early `break`: the break fires only when the
window has run past the end of `b`, where every later window is empty too,
so the two loops agree (proved below). -/
def matchLoopNB (b : List Char) (r : ℕ) : List Char → ℕ → MatchState → MatchState
  | [], _, st => st
  | c :: rest, i, st =>
    match findUnmatched b st.bM c (i - r) (min (i + r + 1) b.length) with
    | none => matchLoopNB b r rest (i + 1) st
    | some j =>
        matchLoopNB b r rest (i + 1)
          ⟨st.aM.set i true, st.bM.set j true, st.cnt + 1⟩

/-- Positions (in increasing order) at which the character `c` occurs in
`s`. -/
def pos (c : Char) (s : List Char) : List ℕ :=
  (List.range s.length).filter (fun i => s.getD i 'A' = c)

/-- Positions below `i` at which `c` occurs in `s`. -/
def posBelow (c : Char) (s : List Char) (i : ℕ) : List ℕ :=
  (List.range i).filter (fun i' => s.getD i' 'A' = c)

/-- One window search of the per-character greedy matching: the first
position of `B` that is unmatched and within distance `r` of `i`. -/
def pickB (r i : ℕ) (m : List ℕ) : List ℕ → Option ℕ
  | [] => none
  | j :: B => if j ∉ m ∧ i ≤ j + r ∧ j ≤ i + r then some j else pickB r i m B

/-- Per-character greedy matching: process the `A`-positions in order, each
matching the first available `B`-position in its window; `m` accumulates the
matched `B`-positions. -/
def greedy (r : ℕ) (B : List ℕ) : List ℕ → List ℕ → List (ℕ × ℕ)
  | [], _ => []
  | i :: A, m =>
    match pickB r i m B with
    | some j => (i, j) :: greedy r B A (j :: m)
    | none => greedy r B A m

/-- The accumulator reached by the per-character greedy matching. -/
def greedyM (r : ℕ) (B : List ℕ) : List ℕ → List ℕ → List ℕ
  | [], m => m
  | i :: A, m =>
    match pickB r i m B with
    | some j => greedyM r B A (j :: m)
    | none => greedyM r B A m

/-- A manifestly symmetric description of the per-character matching on two
increasing position lists: pair the heads when they are within `r` of each
other, otherwise drop the smaller head. -/
def symMatch (r : ℕ) : List ℕ → List ℕ → List (ℕ × ℕ)
  | [], _ => []
  | _ :: _, [] => []
  | i :: A, j :: B =>
    if i + r < j then symMatch r A (j :: B)
    else if j + r < i then symMatch r (i :: A) B
    else (i, j) :: symMatch r A B
termination_by A B => A.length + B.length

/-- The medoid selector as the specification words it: the group member
whose summed similarity to every OTHER member of the group is maximal, ties
broken by first occurrence.  (Written from the spec sentence, to be compared
against `findNewMedoid`, which sums over all members including the element
itself.) -/
def specNewMedoid (dm : DistanceMatrix) (group : List String) : String :=
  let eachSumDists := group.map
    (fun m => ((group.filter (fun e => !decide (e = m))).map (fun e => dm.dist m e)).sum)
  group.getD (idxOfQ eachSumDists (pyMax eachSumDists)) ""

/-! ## Sanity fixtures from test_stringcluster.py -/

set_option maxRecDepth 8000
set_option maxHeartbeats 1600000

example : round6 (jaroDistance "MARTHA" "MARHTA") = 944444/1000000 := by
  have hm : matchPhase ['M','A','R','T','H','A'] ['M','A','R','H','T','A'] 2 =
      ⟨[true, true, true, true, true, true], [true, true, true, true, true, true], 6⟩ := by
    decide
  have hs : truePositions [true, true, true, true, true, true] = [0, 1, 2, 3, 4, 5] := by decide
  have ht : transCount ['M','A','R','T','H','A'] ['M','A','R','H','T','A']
      [0, 1, 2, 3, 4, 5] [0, 1, 2, 3, 4, 5] = 2 := by decide
  have harg : jaroDistance "MARTHA" "MARHTA" = 17/18 := by
    simp +decide [jaroDistance, jaroList, hm, hs, ht, JARO_WEIGHT_STRING_A,
      JARO_WEIGHT_STRING_B, JARO_WEIGHT_TRANSPOSITIONS]
    norm_num
  rw [harg]
  norm_num [round6, roundHalfEven, Int.fract]

example : jaroDistance "cat" "cat" = 1 := by
  have hm : matchPhase ['c','a','t'] ['c','a','t'] 0 =
      ⟨[true, true, true], [true, true, true], 3⟩ := by decide
  have hs : truePositions [true, true, true] = [0, 1, 2] := by decide
  have ht : transCount ['c','a','t'] ['c','a','t'] [0, 1, 2] [0, 1, 2] = 0 := by decide
  simp +decide [jaroDistance, jaroList, hm, hs, ht, JARO_WEIGHT_STRING_A,
    JARO_WEIGHT_STRING_B, JARO_WEIGHT_TRANSPOSITIONS]
  norm_num

/-! ## C8: cluster() on an empty element collection -/

/-- C8: invoking `cluster()` on an engine with an empty element collection
raises `ValueError` before any state mutation: the outcome carries the
unchanged engine state, and if no result was set before the call, none is
readable after it. -/
theorem cluster_empty_raises (eng : ClusterEngine) (sample : List String)
    (fuel : ℕ) (h : eng.elems = []) :
    eng.cluster sample fuel = some (ClusterOutcome.raised PyError.valueError eng) ∧
      (eng.result = none → eng.asText = CallResult.raised PyError.invalidStateError) := by
  constructor
  · simp [ClusterEngine.cluster, h]
  · intro hr
    simp [ClusterEngine.asText, pyFalsyResult, hr]

/-- Witness for `cluster_empty_raises` on a concrete engine. -/
theorem cluster_empty_raises_witness :
    (ClusterEngine.init 3 []).cluster ["x"] 5
        = some (ClusterOutcome.raised PyError.valueError (ClusterEngine.init 3 [])) ∧
      ((ClusterEngine.init 3 []).result = none →
        (ClusterEngine.init 3 []).asText = CallResult.raised PyError.invalidStateError) :=
  cluster_empty_raises (ClusterEngine.init 3 []) ["x"] 5 rfl

/-! ## C9: result accessors before convergence -/

/-- C9: calling `asText()` or `asCSV()` while the result is unset raises
`InvalidStateError`; the accessors read the state without modifying it (they
are pure functions of the engine state in this model). -/
theorem accessor_unready_raises (eng : ClusterEngine) (h : eng.result = none) :
    eng.asText = CallResult.raised PyError.invalidStateError ∧
      eng.asCSV = CallResult.raised PyError.invalidStateError := by
  constructor
  · simp [ClusterEngine.asText, pyFalsyResult, h]
  · simp [ClusterEngine.asCSV, pyFalsyResult, h]

/-- Witness for `accessor_unready_raises` on a freshly constructed engine. -/
theorem accessor_unready_raises_witness :
    (ClusterEngine.init 2 ["cat", "dog"]).asText
        = CallResult.raised PyError.invalidStateError ∧
      (ClusterEngine.init 2 ["cat", "dog"]).asCSV
        = CallResult.raised PyError.invalidStateError :=
  accessor_unready_raises (ClusterEngine.init 2 ["cat", "dog"]) rfl

/-! ## C10: cluster() with k == 0 -/

/-- With `k = 0` the only valid `random.sample` result is the empty list. -/
theorem sample_zero_eq_nil (elems : List String) (s : List String)
    (h : IsSample elems 0 s) : s = [] :=
  List.eq_nil_of_length_eq_zero h.1

/-- C10: on a non-empty element list with `k = 0`, `cluster()` terminates
normally without raising (`Counter(None) == Counter([])`, so the loop body
never runs), the engine state is unchanged with no result materialized, and a
subsequent `asText()` still raises `InvalidStateError`. -/
theorem cluster_k_zero_no_result (elems : List String) (fuel : ℕ)
    (h : elems ≠ []) :
    (ClusterEngine.init 0 elems).cluster [] fuel
        = some (ClusterOutcome.finished (ClusterEngine.init 0 elems)) ∧
      (ClusterEngine.init 0 elems).result = none ∧
      (ClusterEngine.init 0 elems).asText = CallResult.raised PyError.invalidStateError := by
  have hloop : ∀ dm el, clusterLoop dm el fuel none [] none = some none := by
    intro dm el
    cases fuel <;> simp [clusterLoop, counterOf]
  refine ⟨?_, rfl, ?_⟩
  · simp [ClusterEngine.cluster, List.isEmpty_iff, h, hloop, ClusterEngine.init]
  · simp [ClusterEngine.asText, pyFalsyResult, ClusterEngine.init]

/-- Witness for `cluster_k_zero_no_result` on a concrete engine. -/
theorem cluster_k_zero_no_result_witness :
    (ClusterEngine.init 0 ["cat"]).cluster [] 7
        = some (ClusterOutcome.finished (ClusterEngine.init 0 ["cat"])) ∧
      (ClusterEngine.init 0 ["cat"]).result = none ∧
      (ClusterEngine.init 0 ["cat"]).asText = CallResult.raised PyError.invalidStateError :=
  cluster_k_zero_no_result ["cat"] 7 (by simp)

/-! ## DistanceMatrix invariants -/

/-- A property preserved by every step of a fold holds of the fold. -/
theorem foldl_preserve {α β : Type} {P : β → Prop} (f : β → α → β) (l : List α)
    (hstep : ∀ st a, a ∈ l → P st → P (f st a)) (st : β) (h : P st) :
    P (l.foldl f st) := by
  induction l generalizing st with
  | nil => exact h
  | cons x xs ih =>
      exact ih (fun st a ha hp => hstep st a (List.mem_cons_of_mem x ha) hp) _
        (hstep st x (List.mem_cons_self x xs) h)

/-- A property established by some step of a fold and preserved by all later
steps holds of the fold. -/
theorem foldl_establish {α β : Type} {P : β → Prop} (f : β → α → β) (l : List α)
    (a : α) (ha : a ∈ l) (hmono : ∀ st b, b ∈ l → P st → P (f st b))
    (hstep : ∀ st, P (f st a)) (st : β) : P (l.foldl f st) := by
  induction l generalizing st with
  | nil => cases ha
  | cons x xs ih =>
      rcases List.mem_cons.mp ha with h | h
      · subst h
        exact foldl_preserve f xs
          (fun st b hb hp => hmono st b (List.mem_cons_of_mem _ hb) hp) _ (hstep st)
      · exact ih h (fun st b hb hp => hmono st b (List.mem_cons_of_mem _ hb) hp) _

/-- Entries of the constructed distance map only involve construction
elements. -/
theorem buildState_domain (elems : List String) (f : String → String → ℚ)
    (x y : String) (h : (buildState elems f).distMap x y ≠ none) :
    x ∈ elems ∧ y ∈ elems := by
  have main : ∀ x y, (buildState elems f).distMap x y ≠ none → x ∈ elems ∧ y ∈ elems := by
    unfold buildState
    apply foldl_preserve
      (P := fun (st : BuildState) => ∀ x y, st.distMap x y ≠ none → x ∈ elems ∧ y ∈ elems)
    · intro st first hfirst hp
      apply foldl_preserve
        (P := fun (st : BuildState) => ∀ x y, st.distMap x y ≠ none → x ∈ elems ∧ y ∈ elems)
      · intro st second hsecond hq x y hxy
        unfold buildStep at hxy
        cases hrev : st.distMap second first with
        | some v => rw [hrev] at hxy; exact hq x y hxy
        | none =>
            rw [hrev] at hxy
            simp only [dmUpdate] at hxy
            by_cases hc : x = first ∧ y = second
            · exact ⟨hc.1 ▸ hfirst, hc.2 ▸ hsecond⟩
            · rw [if_neg hc] at hxy
              exact hq x y hxy
      · exact hp
    · intro x y h
      simp at h
  exact main x y h

/-- Every stored value is the distance function's value on the stored key,
rounded to six decimals. -/
theorem buildState_values (elems : List String) (f : String → String → ℚ)
    (x y : String) (v : ℚ) (h : (buildState elems f).distMap x y = some v) :
    v = round6 (f x y) := by
  have main : ∀ x y v, (buildState elems f).distMap x y = some v → v = round6 (f x y) := by
    unfold buildState
    apply foldl_preserve
      (P := fun (st : BuildState) => ∀ x y v, st.distMap x y = some v → v = round6 (f x y))
    · intro st first _ hp
      apply foldl_preserve
        (P := fun (st : BuildState) => ∀ x y v, st.distMap x y = some v → v = round6 (f x y))
      · intro st second _ hq x y v hxy
        unfold buildStep at hxy
        cases hrev : st.distMap second first with
        | some w => rw [hrev] at hxy; exact hq x y v hxy
        | none =>
            rw [hrev] at hxy
            simp only [dmUpdate] at hxy
            by_cases hc : x = first ∧ y = second
            · rw [if_pos hc] at hxy
              obtain ⟨h1, h2⟩ := hc
              subst h1; subst h2
              exact (Option.some_injective _ hxy).symm
            · rw [if_neg hc] at hxy
              exact hq x y v hxy
      · exact hp
    · intro x y v h
      simp at h
  exact main x y v h

/-- One build step never removes a stored entry. -/
theorem buildStep_mono (f : String → String → ℚ) (st : BuildState)
    (first second x y : String) (h : st.distMap x y ≠ none) :
    (buildStep f st first second).distMap x y ≠ none := by
  unfold buildStep
  cases hrev : st.distMap second first with
  | some v => exact h
  | none =>
      simp only [dmUpdate]
      by_cases hc : x = first ∧ y = second
      · rw [if_pos hc]; simp
      · rw [if_neg hc]; exact h

/-- After construction, each pair of construction elements is stored in at
least one direction. -/
theorem buildState_covers (elems : List String) (f : String → String → ℚ)
    (a b : String) (ha : a ∈ elems) (hb : b ∈ elems) :
    (buildState elems f).distMap a b ≠ none ∨ (buildState elems f).distMap b a ≠ none := by
  have mono : ∀ (st : BuildState) (first second : String),
      (st.distMap a b ≠ none ∨ st.distMap b a ≠ none) →
      ((buildStep f st first second).distMap a b ≠ none ∨
        (buildStep f st first second).distMap b a ≠ none) := by
    intro st first second h
    rcases h with h | h
    · exact Or.inl (buildStep_mono f st first second a b h)
    · exact Or.inr (buildStep_mono f st first second b a h)
  unfold buildState
  apply foldl_establish
    (P := fun (st : BuildState) => st.distMap a b ≠ none ∨ st.distMap b a ≠ none)
    _ elems a ha
  · intro st x _ h
    exact foldl_preserve _ elems (fun st y _ h => mono st x y h) st h
  · intro st
    apply foldl_establish
      (P := fun (st : BuildState) => st.distMap a b ≠ none ∨ st.distMap b a ≠ none)
      _ elems b hb
    · intro st y _ h
      exact mono st a y h
    · intro st
      unfold buildStep
      cases hrev : st.distMap b a with
      | some v => exact Or.inr (by simp [hrev])
      | none =>
          left
          simp only [dmUpdate]
          simp

/-! ## C6: lookups outside the construction set -/

/-- C6: `dist` returns the sentinel `-1` (never raising — it is a total
function) whenever at least one argument was absent from the construction
collection, in both argument orders; and a matrix built from the empty
collection returns `-1` for every query. -/
theorem dist_not_found (elems : List String) (f : String → String → ℚ)
    (a b : String) (h : a ∉ elems ∨ b ∉ elems) :
    (DistanceMatrix.build elems f).dist a b = -1 ∧
      (DistanceMatrix.build elems f).dist b a = -1 ∧
      ∀ x y : String, (DistanceMatrix.build [] f).dist x y = -1 := by
  have hnone : ∀ x y : String, (x ∉ elems ∨ y ∉ elems) →
      (buildState elems f).distMap x y = none := by
    intro x y hxy
    by_contra hc
    have := buildState_domain elems f x y hc
    tauto
  have hab := hnone a b h
  have hba := hnone b a (Or.symm h)
  refine ⟨?_, ?_, ?_⟩
  · simp [DistanceMatrix.dist, DistanceMatrix.build, hab, hba]
  · simp [DistanceMatrix.dist, DistanceMatrix.build, hab, hba]
  · intro x y
    have h1 : (buildState [] f).distMap x y = none := by
      by_contra hc
      have := (buildState_domain [] f x y hc).1
      simp at this
    have h2 : (buildState [] f).distMap y x = none := by
      by_contra hc
      have := (buildState_domain [] f y x hc).1
      simp at this
    simp [DistanceMatrix.dist, DistanceMatrix.build, h1, h2]

/-- Witness for `dist_not_found` at a concrete matrix and queries. -/
theorem dist_not_found_witness :
    (DistanceMatrix.build ["x"] (fun _ _ => 0)).dist "x" "zz" = -1 ∧
      (DistanceMatrix.build ["x"] (fun _ _ => 0)).dist "zz" "x" = -1 ∧
      ∀ x y : String, (DistanceMatrix.build [] (fun _ _ => 0)).dist x y = -1 :=
  dist_not_found ["x"] (fun _ _ => 0) "x" "zz" (Or.inr (by decide))

/-! ## C3: symmetry and stored value of dist -/

/-- For elements of the construction collection, `dist` returns the rounded
value of the (symmetric) distance function. -/
theorem dist_eq_round6 (elems : List String) (f : String → String → ℚ)
    (hf : ∀ x y, f x y = f y x) (a b : String) (ha : a ∈ elems) (hb : b ∈ elems) :
    (DistanceMatrix.build elems f).dist a b = round6 (f a b) := by
  cases hab : (buildState elems f).distMap a b with
  | some v =>
      have hv := buildState_values elems f a b v hab
      simp [DistanceMatrix.dist, DistanceMatrix.build, hab, hv]
  | none =>
      rcases buildState_covers elems f a b ha hb with hc | hc
      · exact absurd hab hc
      · cases hba : (buildState elems f).distMap b a with
        | none => exact absurd hba hc
        | some w =>
            have hw := buildState_values elems f b a w hba
            have : round6 (f b a) = round6 (f a b) := by rw [hf a b]
            simp [DistanceMatrix.dist, DistanceMatrix.build, hab, hba, hw, this]

/-- C3: for a matrix built over any finite collection with a symmetric
distance function (the documented contract of `DistanceMatrix`), lookups
between collection members are symmetric and equal the function's value
rounded to six decimal places. -/
theorem dist_symm_round6 (elems : List String) (f : String → String → ℚ)
    (hf : ∀ x y, f x y = f y x) (a b : String) (ha : a ∈ elems) (hb : b ∈ elems) :
    (DistanceMatrix.build elems f).dist a b = (DistanceMatrix.build elems f).dist b a ∧
      (DistanceMatrix.build elems f).dist a b = round6 (f a b) := by
  have h1 := dist_eq_round6 elems f hf a b ha hb
  have h2 := dist_eq_round6 elems f hf b a hb ha
  refine ⟨?_, h1⟩
  rw [h1, h2, hf a b]

/-- Witness for `dist_symm_round6` at a concrete matrix. -/
theorem dist_symm_round6_witness :
    (DistanceMatrix.build ["x", "y"] (fun _ _ => 1)).dist "x" "y"
        = (DistanceMatrix.build ["x", "y"] (fun _ _ => 1)).dist "y" "x" ∧
      (DistanceMatrix.build ["x", "y"] (fun _ _ => 1)).dist "x" "y"
        = round6 ((fun (_ _ : String) => (1 : ℚ)) "x" "y") :=
  dist_symm_round6 ["x", "y"] (fun _ _ => 1) (fun _ _ => rfl) "x" "y"
    (by decide) (by decide)

/-! ## C7: number of distance-function evaluations -/

/-- Filtering away list members that all lie in `P` yields the empty list. -/
theorem filter_all_mem (P l : List String) (h : ∀ y ∈ l, y ∈ P) :
    l.filter (fun y => !decide (y ∈ P)) = [] := by
  induction l with
  | nil => rfl
  | cons z zs ih =>
      rw [List.filter_cons_of_neg]
      · exact ih (fun y hy => h y (List.mem_cons_of_mem z hy))
      · simp [h z (List.mem_cons_self z zs)]

/-- Filtering keeps a list all of whose members avoid `P`. -/
theorem filter_all_not_mem (P l : List String) (h : ∀ y ∈ l, y ∉ P) :
    l.filter (fun y => !decide (y ∈ P)) = l := by
  induction l with
  | nil => rfl
  | cons z zs ih =>
      rw [List.filter_cons_of_pos]
      · rw [ih (fun y hy => h y (List.mem_cons_of_mem z hy))]
      · simp [h z (List.mem_cons_self z zs)]

/-- The inner construction loop for a fixed `first = x`: effect on the log
and on which keys are stored. -/
theorem inner_go (elems : List String) (f : String → String → ℚ) (x : String)
    (P : List String) (hnd : elems.Nodup) (hx : x ∈ elems) (hxP : x ∉ P)
    (st : BuildState)
    (h1 : ∀ x' y', st.distMap x' y' ≠ none → x' ∈ P)
    (h2 : ∀ x' ∈ P, ∀ y ∈ elems, y ∉ P → st.distMap x' y ≠ none) :
    ∀ T S st', elems = S ++ T →
      st'.evalLog = st.evalLog ++ (S.filter (fun y => !decide (y ∈ P))).map (fun y => (x, y)) →
      (∀ x' y', st'.distMap x' y' ≠ none ↔
        (st.distMap x' y' ≠ none ∨ (x' = x ∧ y' ∈ S ∧ y' ∉ P))) →
      (T.foldl (fun st second => buildStep f st x second) st').evalLog
          = st.evalLog ++ (elems.filter (fun y => !decide (y ∈ P))).map (fun y => (x, y)) ∧
      ∀ x' y', (T.foldl (fun st second => buildStep f st x second) st').distMap x' y' ≠ none ↔
        (st.distMap x' y' ≠ none ∨ (x' = x ∧ y' ∈ elems ∧ y' ∉ P)) := by
  intro T
  induction T with
  | nil =>
      intro S st' hsplit hlog hmap
      have hS : S = elems := by rw [hsplit, List.append_nil]
      subst hS
      exact ⟨hlog, hmap⟩
  | cons y T' ih =>
      intro S st' hsplit hlog hmap
      have hyE : y ∈ elems := by rw [hsplit]; simp
      have hsplit' : elems = (S ++ [y]) ++ T' := by rw [hsplit, List.append_assoc]; rfl
      by_cases hyP : y ∈ P
      · -- reverse entry already stored: skip
        have hstored : st'.distMap y x ≠ none := by
          rw [hmap y x]
          exact Or.inl (h2 y hyP x hx hxP)
        obtain ⟨v, hv⟩ := Option.ne_none_iff_exists'.mp hstored
        have hstep : buildStep f st' x y = st' := by
          unfold buildStep
          rw [hv]
        simp only [List.foldl_cons, hstep]
        apply ih (S ++ [y]) st' hsplit'
        · rw [hlog, List.filter_append, filter_all_mem P [y] (by simp [hyP])]
          simp
        · intro x' y'
          rw [hmap x' y']
          constructor
          · rintro (h | ⟨hxx, hyS, hyP'⟩)
            · exact Or.inl h
            · exact Or.inr ⟨hxx, by simp [hyS], hyP'⟩
          · rintro (h | ⟨hxx, hyS, hyP'⟩)
            · exact Or.inl h
            · rcases List.mem_append.mp hyS with h' | h'
              · exact Or.inr ⟨hxx, h', hyP'⟩
              · simp at h'
                subst h'
                exact absurd hyP hyP'
      · -- fresh pair: store and log
        have hxS : x ∉ S ∨ x ≠ y := by
          by_cases hxy : x = y
          · subst hxy
            left
            have := List.nodup_append.mp (hsplit ▸ hnd)
            intro hxS
            exact this.2.2 hxS (List.mem_cons_self x T')
          · exact Or.inr hxy
        have hnone : st'.distMap y x = none := by
          cases hcase : st'.distMap y x with
          | none => rfl
          | some v =>
              exfalso
              have : st'.distMap y x ≠ none := by rw [hcase]; simp
              rcases (hmap y x).mp this with h | ⟨hyx, hxS', _⟩
              · exact hyP (h1 y x h)
              · rcases hxS with h' | h'
                · exact h' (hyx ▸ hxS')
                · exact h' hyx.symm
        have hstep : buildStep f st' x y =
            ⟨dmUpdate st'.distMap x y (round6 (f x y)), st'.evalLog ++ [(x, y)]⟩ := by
          unfold buildStep
          rw [hnone]
        simp only [List.foldl_cons, hstep]
        apply ih (S ++ [y]) _ hsplit'
        · show st'.evalLog ++ [(x, y)] = _
          rw [hlog, List.filter_append, filter_all_not_mem P [y] (by simp [hyP])]
          simp
        · intro x' y'
          show dmUpdate st'.distMap x y (round6 (f x y)) x' y' ≠ none ↔ _
          unfold dmUpdate
          by_cases hc : x' = x ∧ y' = y
          · rw [if_pos hc]
            simp only [ne_eq, reduceCtorEq, not_false_eq_true, true_iff]
            exact Or.inr ⟨hc.1, by simp [hc.2], hc.2 ▸ hyP⟩
          · rw [if_neg hc]
            rw [hmap x' y']
            constructor
            · rintro (h | ⟨hxx, hyS, hyP'⟩)
              · exact Or.inl h
              · exact Or.inr ⟨hxx, by simp [hyS], hyP'⟩
            · rintro (h | ⟨hxx, hyS, hyP'⟩)
              · exact Or.inl h
              · rcases List.mem_append.mp hyS with h' | h'
                · exact Or.inr ⟨hxx, h', hyP'⟩
                · simp at h'
                  exact absurd ⟨hxx, h'⟩ hc

/-- The outer construction loop: the accumulated evaluation log is the
explicit `logAux` list. -/
theorem outer_go (elems : List String) (f : String → String → ℚ)
    (hnd : elems.Nodup) :
    ∀ R P st, elems = P ++ R →
      (∀ x' y', st.distMap x' y' ≠ none → x' ∈ P) →
      (∀ x' ∈ P, ∀ y ∈ elems, y ∉ P → st.distMap x' y ≠ none) →
      (R.foldl (fun st first => elems.foldl (fun st second => buildStep f st first second) st)
          st).evalLog
        = st.evalLog ++ logAux elems P R := by
  intro R
  induction R with
  | nil => intro P st _ _ _; simp [logAux]
  | cons x R' ih =>
      intro P st hsplit h1 h2
      have hx : x ∈ elems := by rw [hsplit]; simp
      have hxP : x ∉ P := by
        have hdis := (List.nodup_append.mp (hsplit ▸ hnd)).2.2
        intro hmem
        exact hdis hmem (List.mem_cons_self x R')
      have hinner := inner_go elems f x P hnd hx hxP st h1 h2 elems [] st rfl
        (by simp) (by intro x' y'; simp)
      obtain ⟨hlog1, hmap1⟩ := hinner
      set st1 := elems.foldl (fun st second => buildStep f st x second) st with hst1
      have h1' : ∀ x' y', st1.distMap x' y' ≠ none → x' ∈ P ++ [x] := by
        intro x' y' h
        rcases (hmap1 x' y').mp h with h' | ⟨hxx, _, _⟩
        · exact List.mem_append.mpr (Or.inl (h1 x' y' h'))
        · subst hxx; simp
      have h2' : ∀ x' ∈ P ++ [x], ∀ y ∈ elems, y ∉ P ++ [x] → st1.distMap x' y ≠ none := by
        intro x' hx' y hy hyP
        have hyP0 : y ∉ P := fun h => hyP (List.mem_append.mpr (Or.inl h))
        rcases List.mem_append.mp hx' with h' | h'
        · rw [hmap1 x' y]
          exact Or.inl (h2 x' h' y hy hyP0)
        · simp at h'
          rw [hmap1 x' y]
          exact Or.inr ⟨h', hy, hyP0⟩
      have hsplit' : elems = (P ++ [x]) ++ R' := by
        rw [hsplit, List.append_assoc]; rfl
      have := ih (P ++ [x]) st1 hsplit' h1' h2'
      simp only [List.foldl_cons]
      rw [← hst1, this, hlog1, logAux, passLog, List.append_assoc]

/-- For distinct elements, the complete evaluation log of the construction is
the explicit `logAux` list. -/
theorem buildState_log (elems : List String) (f : String → String → ℚ)
    (hnd : elems.Nodup) :
    (buildState elems f).evalLog = logAux elems [] elems := by
  have := outer_go elems f hnd elems [] ⟨fun _ _ => none, []⟩ (by simp)
    (by intro x' y' h; simp at h) (by intro x' h; simp at h)
  unfold buildState
  rw [this]
  rfl

/-- Length of the explicit log: the remaining passes contribute a triangular
number. -/
theorem logAux_length (full : List String) (hnd : full.Nodup) :
    ∀ R P, full = P ++ R →
      2 * (logAux full P R).length = R.length * (R.length + 1) := by
  intro R
  induction R with
  | nil => intro P _; simp [logAux]
  | cons x R' ih =>
      intro P hsplit
      have hdis := (List.nodup_append.mp (hsplit ▸ hnd)).2.2
      have hfil : full.filter (fun y => !decide (y ∈ P)) = x :: R' := by
        rw [hsplit, List.filter_append]
        rw [filter_all_mem P P (fun y hy => hy)]
        rw [filter_all_not_mem P (x :: R') (fun y hy hmem => hdis hmem hy)]
        simp
      have hsplit' : full = (P ++ [x]) ++ R' := by
        rw [hsplit, List.append_assoc]; rfl
      have hrec := ih (P ++ [x]) hsplit'
      rw [logAux, List.length_append, passLog, List.length_map, hfil]
      simp only [List.length_cons]
      have hring : (R'.length + 1) * (R'.length + 1 + 1)
          = R'.length * (R'.length + 1) + 2 * (R'.length + 1) := by ring
      omega

/-- Shape of explicit-log entries: first component still unprocessed, second
component not in the processed prefix. -/
theorem logAux_shape (full : List String) :
    ∀ R P p, p ∈ logAux full P R → p.1 ∈ R ∧ p.2 ∉ P := by
  intro R
  induction R with
  | nil => intro P p hp; simp [logAux] at hp
  | cons x R' ih =>
      intro P p hp
      rw [logAux] at hp
      rcases List.mem_append.mp hp with h | h
      · unfold passLog at h
        obtain ⟨y, hy, hyp⟩ := List.mem_map.mp h
        have hyP : y ∉ P := by
          have := List.of_mem_filter hy
          simp at this
          exact this
        rw [← hyp]
        exact ⟨List.mem_cons_self x R', hyP⟩
      · obtain ⟨h1, h2⟩ := ih (P ++ [x]) p h
        refine ⟨List.mem_cons_of_mem x h1, fun hq => h2 ?_⟩
        exact List.mem_append.mpr (Or.inl hq)

/-- If one of the two strings is already processed and does not recur, no
later pass mentions the unordered pair. -/
theorem countUnordered_zero (full : List String) (a b : String) :
    ∀ R P, ((a ∉ R ∧ a ∈ P) ∨ (b ∉ R ∧ b ∈ P)) →
      countUnordered (logAux full P R) a b = 0 := by
  intro R P h
  unfold countUnordered
  rw [List.countP_eq_zero]
  intro p hp
  have hshape := logAux_shape full R P p hp
  simp only [decide_eq_true_eq]
  rintro (⟨hp1, hp2⟩ | ⟨hp1, hp2⟩)
  · rcases h with ⟨h1, _⟩ | ⟨_, h2⟩
    · exact h1 (hp1 ▸ hshape.1)
    · exact hshape.2 (hp2 ▸ h2)
  · rcases h with ⟨_, h2⟩ | ⟨h1, _⟩
    · exact hshape.2 (hp2 ▸ h2)
    · exact h1 (hp1 ▸ hshape.1)

/-- In a duplicate-free list, exactly one member equals `b` when `b` is a
member. -/
theorem countP_eq_one_mem (l : List String) (hnd : l.Nodup) (b : String)
    (hb : b ∈ l) : l.countP (fun y => decide (y = b)) = 1 := by
  induction l with
  | nil => cases hb
  | cons z zs ih =>
      rcases List.mem_cons.mp hb with h | h
      · rw [List.countP_cons_of_pos _ _ (by simp [h.symm])]
        have hzero : zs.countP (fun y => decide (y = b)) = 0 := by
          rw [List.countP_eq_zero]
          intro p hp
          simp only [decide_eq_true_eq]
          intro hq
          exact (List.nodup_cons.mp hnd).1 (h ▸ hq ▸ hp)
        omega
      · have hz : z ≠ b := by
          intro hq
          exact (List.nodup_cons.mp hnd).1 (hq ▸ h)
        rw [List.countP_cons_of_neg _ _ (by simp [hz])]
        exact ih (List.nodup_cons.mp hnd).2 h

/-- The unprocessed suffix is recovered by filtering the processed prefix
away. -/
theorem filter_split (full P R : List String) (hnd : full.Nodup)
    (hsplit : full = P ++ R) :
    full.filter (fun y => !decide (y ∈ P)) = R := by
  have hdis := (List.nodup_append.mp (hsplit ▸ hnd)).2.2
  rw [hsplit, List.filter_append]
  rw [filter_all_mem P P (fun y hy => hy)]
  rw [filter_all_not_mem P R (fun y hy hmem => hdis hmem hy)]
  simp

/-- Each unordered pair of still-unprocessed elements is logged exactly once
by the remaining passes. -/
theorem countUnordered_one (full : List String) (hnd : full.Nodup) (a b : String) :
    ∀ R P, full = P ++ R → a ∈ R → b ∈ R →
      countUnordered (logAux full P R) a b = 1 := by
  intro R
  induction R with
  | nil => intro P _ ha _; cases ha
  | cons x R' ih =>
      intro P hsplit ha hb
      have hndR : (x :: R').Nodup := (List.nodup_append.mp (hsplit ▸ hnd)).2.1
      have hxR' : x ∉ R' := (List.nodup_cons.mp hndR).1
      have hndR' : R'.Nodup := (List.nodup_cons.mp hndR).2
      have hfil := filter_split full P (x :: R') hnd hsplit
      have hsplit' : full = (P ++ [x]) ++ R' := by
        rw [hsplit, List.append_assoc]; rfl
      unfold countUnordered
      rw [logAux, List.countP_append]
      unfold passLog
      rw [List.countP_map, hfil]
      by_cases hxa : x = a
      · subst hxa
        have hrec : countUnordered (logAux full (P ++ [x]) R') x b = 0 := by
          apply countUnordered_zero
          exact Or.inl ⟨hxR', by simp⟩
        unfold countUnordered at hrec
        rw [hrec]
        by_cases hab : x = b
        · subst hab
          have hp : ((fun p => decide ((p.1 = x ∧ p.2 = x) ∨ (p.1 = x ∧ p.2 = x)))
              ∘ fun y => (x, y)) = fun y => decide (y = x) := by
            funext y
            simp [Function.comp]
          rw [hp]
          rw [List.countP_cons_of_pos _ _ (by simp)]
          have hzero : R'.countP (fun y => decide (y = x)) = 0 := by
            rw [List.countP_eq_zero]
            intro p hp
            simp only [decide_eq_true_eq]
            intro hq
            exact hxR' (hq ▸ hp)
          omega
        · have hp : ((fun p => decide ((p.1 = x ∧ p.2 = b) ∨ (p.1 = b ∧ p.2 = x)))
              ∘ fun y => (x, y)) = fun y => decide (y = b) := by
            funext y
            simp [Function.comp, hab, Ne.symm hab]
          rw [hp]
          have hbR' : b ∈ R' := by
            rcases List.mem_cons.mp hb with h | h
            · exact absurd h.symm hab
            · exact h
          rw [List.countP_cons_of_neg _ _ (by simp [hab])]
          rw [countP_eq_one_mem R' hndR' b hbR']
      · by_cases hxb : x = b
        · subst hxb
          have hrec : countUnordered (logAux full (P ++ [x]) R') a x = 0 := by
            apply countUnordered_zero
            exact Or.inr ⟨hxR', by simp⟩
          unfold countUnordered at hrec
          rw [hrec]
          have hp : ((fun p => decide ((p.1 = a ∧ p.2 = x) ∨ (p.1 = x ∧ p.2 = a)))
              ∘ fun y => (x, y)) = fun y => decide (y = a) := by
            funext y
            simp [Function.comp, hxa]
          rw [hp]
          have haR' : a ∈ R' := by
            rcases List.mem_cons.mp ha with h | h
            · exact absurd h.symm hxa
            · exact h
          rw [List.countP_cons_of_neg _ _ (by simp [hxa])]
          rw [countP_eq_one_mem R' hndR' a haR']
        · have hpass : ((fun p => decide ((p.1 = a ∧ p.2 = b) ∨ (p.1 = b ∧ p.2 = a)))
              ∘ fun y => (x, y)) = fun _ => false := by
            funext y
            simp [Function.comp, hxa, hxb]
          rw [hpass]
          have haR' : a ∈ R' := by
            rcases List.mem_cons.mp ha with h | h
            · exact absurd h.symm hxa
            · exact h
          have hbR' : b ∈ R' := by
            rcases List.mem_cons.mp hb with h | h
            · exact absurd h.symm hxb
            · exact h
          have := ih (P ++ [x]) hsplit' haR' hbR'
          unfold countUnordered at this
          rw [this]
          simp

/-- C7 (amended with distinctness): for a collection of `n` distinct
elements, construction evaluates the distance function exactly
`n (n + 1) / 2` times — exactly once per unordered pair, self-pairs included —
and every stored value is the function's result rounded to six decimals. -/
theorem build_eval_count (elems : List String) (f : String → String → ℚ)
    (hnd : elems.Nodup) :
    (buildState elems f).evalLog.length = elems.length * (elems.length + 1) / 2 ∧
      (∀ a ∈ elems, ∀ b ∈ elems, countUnordered (buildState elems f).evalLog a b = 1) ∧
      ∀ x y v, (buildState elems f).distMap x y = some v → v = round6 (f x y) := by
  have hlog := buildState_log elems f hnd
  have hlen := logAux_length elems hnd elems [] (by simp)
  refine ⟨?_, ?_, fun x y v h => buildState_values elems f x y v h⟩
  · rw [hlog]
    omega
  · intro a ha b hb
    rw [hlog]
    exact countUnordered_one elems hnd a b elems [] (by simp) ha hb

/-- Witness for `build_eval_count` on a concrete two-element collection. -/
theorem build_eval_count_witness :
    (buildState ["x", "y"] (fun _ _ => 0)).evalLog.length = 2 * (2 + 1) / 2 ∧
      (∀ a ∈ ["x", "y"], ∀ b ∈ ["x", "y"],
        countUnordered (buildState ["x", "y"] (fun _ _ => 0)).evalLog a b = 1) ∧
      ∀ x y v, (buildState ["x", "y"] (fun _ _ => 0)).distMap x y = some v →
        v = round6 ((fun (_ _ : String) => (0 : ℚ)) x y) :=
  build_eval_count ["x", "y"] (fun _ _ => 0) (by decide)

/-- Counterexample to C7 as stated: with the duplicate collection
`["a", "a"]` (n = 2 elements), the distance function is evaluated once, not
`n (n + 1) / 2 = 3` times. -/
theorem build_eval_count_cex :
    (buildState ["a", "a"] jaroWinklerDistance).evalLog.length = 1 ∧
      1 ≠ 2 * (2 + 1) / 2 := by
  constructor
  · decide
  · decide

/-! ## Argmax facts for pyMax / idxOfQ -/

/-- A fold of `max` stays among the start value and the list members. -/
theorem foldl_max_mem (xs : List ℚ) : ∀ x, xs.foldl max x ∈ x :: xs := by
  induction xs with
  | nil => intro x; simp
  | cons y ys ih =>
      intro x
      show ys.foldl max (max x y) ∈ x :: y :: ys
      rcases List.mem_cons.mp (ih (max x y)) with h | h
      · rw [h]
        rcases max_choice x y with hc | hc <;> rw [hc] <;> simp
      · simp [h]

/-- Python `max` of a non-empty list is a member. -/
theorem pyMax_mem (l : List ℚ) (h : l ≠ []) : pyMax l ∈ l := by
  cases l with
  | nil => exact absurd rfl h
  | cons x xs => exact foldl_max_mem xs x

/-- A fold of `max` bounds the start value and every member. -/
theorem foldl_max_ge (xs : List ℚ) : ∀ x, x ≤ xs.foldl max x ∧ ∀ v ∈ xs, v ≤ xs.foldl max x := by
  induction xs with
  | nil => intro x; simp
  | cons y ys ih =>
      intro x
      obtain ⟨h1, h2⟩ := ih (max x y)
      constructor
      · show x ≤ ys.foldl max (max x y)
        exact le_trans (le_max_left x y) h1
      · intro v hv
        show v ≤ ys.foldl max (max x y)
        rcases List.mem_cons.mp hv with h | h
        · rw [h]
          exact le_trans (le_max_right x y) h1
        · exact h2 v h

/-- Python `max` dominates every member. -/
theorem pyMax_ge (l : List ℚ) (v : ℚ) (hv : v ∈ l) : v ≤ pyMax l := by
  cases l with
  | nil => cases hv
  | cons x xs =>
      rcases List.mem_cons.mp hv with h | h
      · exact h ▸ (foldl_max_ge xs x).1
      · exact (foldl_max_ge xs x).2 v h

/-- `list.index` of a member is in range. -/
theorem idxOfQ_lt_length (l : List ℚ) (v : ℚ) (hv : v ∈ l) :
    idxOfQ l v < l.length := by
  induction l with
  | nil => cases hv
  | cons x xs ih =>
      unfold idxOfQ
      by_cases hx : x = v
      · rw [if_pos hx]; simp
      · rw [if_neg hx]
        have : v ∈ xs := by
          rcases List.mem_cons.mp hv with h | h
          · exact absurd h.symm hx
          · exact h
        simpa using ih this

/-- Shifting every entry by a constant shifts Python `max` by that constant. -/
theorem pyMax_map_add (c : ℚ) (l : List ℚ) (h : l ≠ []) :
    pyMax (l.map (fun q => q + c)) = pyMax l + c := by
  cases l with
  | nil => exact absurd rfl h
  | cons x xs =>
      show (xs.map (fun q => q + c)).foldl max (x + c) = xs.foldl max x + c
      clear h
      induction xs generalizing x with
      | nil => rfl
      | cons y ys ih =>
          show (ys.map (fun q => q + c)).foldl max (max (x + c) (y + c)) = _
          rw [max_add_add_right, ih (max x y)]
          rfl

/-- Shifting every entry by a constant leaves `list.index(max(...))`
unchanged. -/
theorem idxOfQ_map_add (c : ℚ) (l : List ℚ) (v : ℚ) :
    idxOfQ (l.map (fun q => q + c)) (v + c) = idxOfQ l v := by
  induction l with
  | nil => rfl
  | cons x xs ih =>
      show idxOfQ ((x + c) :: xs.map (fun q => q + c)) (v + c) = idxOfQ (x :: xs) v
      unfold idxOfQ
      by_cases hx : x = v
      · rw [if_pos (by rw [hx]), if_pos hx]
      · rw [if_neg (fun hq => hx (by linarith)), if_neg hx, ih]

/-! ## C4: medoid selection -/

/-- Filtering for a value absent from the list keeps the list. -/
theorem filter_ne_absent (xs : List String) (m : String) (h : m ∉ xs) :
    xs.filter (fun e => !decide (e = m)) = xs := by
  induction xs with
  | nil => rfl
  | cons x xs ih =>
      have hx : x ≠ m := fun hq => h (hq ▸ List.mem_cons_self x xs)
      rw [List.filter_cons_of_pos (by simp [hx])]
      rw [ih (fun hq => h (List.mem_cons_of_mem x hq))]

/-- For a duplicate-free group, the sum over all members splits into the sum
over the other members plus the self-distance. -/
theorem sum_all_eq_sum_others (dm : DistanceMatrix) (g : List String) (m : String)
    (hm : m ∈ g) (hnd : g.Nodup) :
    (g.map (fun e => dm.dist m e)).sum
      = ((g.filter (fun e => !decide (e = m))).map (fun e => dm.dist m e)).sum
        + dm.dist m m := by
  induction g with
  | nil => cases hm
  | cons x xs ih =>
      by_cases hx : x = m
      · subst hx
        have hnx : x ∉ xs := (List.nodup_cons.mp hnd).1
        rw [List.filter_cons_of_neg (by simp), filter_ne_absent xs x hnx]
        simp [add_comm]
      · have hmx : m ∈ xs := by
          rcases List.mem_cons.mp hm with h | h
          · exact absurd h.symm hx
          · exact h
        rw [List.filter_cons_of_pos (by simp [hx])]
        simp only [List.map_cons, List.sum_cons]
        rw [ih hmx (List.nodup_cons.mp hnd).2]
        ring

/-- C4 (amended): for a duplicate-free group each of whose members has
self-similarity 1 in the matrix, `findNewMedoid` picks the member whose
summed similarity to every other member is maximal, first occurrence winning
ties — summing over all members shifts every candidate's total by exactly 1,
which moves neither the maximum nor the tie-break. -/
theorem findNewMedoid_spec (dm : DistanceMatrix) (g : List String) (hne : g ≠ [])
    (hnd : g.Nodup) (hself : ∀ m ∈ g, dm.dist m m = 1) :
    findNewMedoid dm g = specNewMedoid dm g := by
  unfold findNewMedoid specNewMedoid
  set sumsE := g.map
    (fun m => ((g.filter (fun e => !decide (e = m))).map (fun e => dm.dist m e)).sum) with hsE
  have hmap : g.map (fun m => (g.map (fun e => dm.dist m e)).sum)
      = sumsE.map (fun q => q + 1) := by
    rw [hsE, List.map_map]
    apply List.map_congr_left
    intro m hm
    show (g.map (fun e => dm.dist m e)).sum = _
    rw [sum_all_eq_sum_others dm g m hm hnd, hself m hm]
    rfl
  rw [hmap]
  have hne' : sumsE ≠ [] := by
    rw [hsE]
    simpa using hne
  show g.getD (idxOfQ (sumsE.map (fun q => q + 1)) (pyMax (sumsE.map (fun q => q + 1)))) ""
    = g.getD (idxOfQ sumsE (pyMax sumsE)) ""
  rw [pyMax_map_add 1 sumsE hne', idxOfQ_map_add 1 sumsE (pyMax sumsE)]

/-! ## Concrete distance values for witnesses and counterexamples -/

/-- Without assuming symmetry, a stored lookup between collection members is
the rounded value of the function in one of the two argument orders. -/
theorem dist_round6_or (elems : List String) (f : String → String → ℚ)
    (a b : String) (ha : a ∈ elems) (hb : b ∈ elems) :
    (DistanceMatrix.build elems f).dist a b = round6 (f a b) ∨
      (DistanceMatrix.build elems f).dist a b = round6 (f b a) := by
  cases hab : (buildState elems f).distMap a b with
  | some v =>
      left
      have hv := buildState_values elems f a b v hab
      simp [DistanceMatrix.dist, DistanceMatrix.build, hab, hv]
  | none =>
      rcases buildState_covers elems f a b ha hb with hc | hc
      · exact absurd hab hc
      · cases hba : (buildState elems f).distMap b a with
        | none => exact absurd hba hc
        | some w =>
            right
            have hw := buildState_values elems f b a w hba
            simp [DistanceMatrix.dist, DistanceMatrix.build, hab, hba, hw]

/-- If both argument orders round to the same value, the lookup equals it. -/
theorem dist_val (elems : List String) (f : String → String → ℚ)
    (a b : String) (ha : a ∈ elems) (hb : b ∈ elems) (v : ℚ)
    (h1 : round6 (f a b) = v) (h2 : round6 (f b a) = v) :
    (DistanceMatrix.build elems f).dist a b = v := by
  rcases dist_round6_or elems f a b ha hb with h | h
  · rw [h, h1]
  · rw [h, h2]

theorem round6_one : round6 1 = 1 := by
  norm_num [round6, roundHalfEven, Int.fract]

theorem round6_zero : round6 0 = 0 := by
  norm_num [round6, roundHalfEven, Int.fract]

theorem round6_twothirds : round6 (2/3) = 666667/1000000 := by
  norm_num [round6, roundHalfEven, Int.fract]

theorem jaro_ab_ac : jaroDistance "ab" "ac" = 2/3 := by
  have hm : matchPhase ['a','b'] ['a','c'] 0 = ⟨[true, false], [true, false], 1⟩ := by decide
  have hs : truePositions [true, false] = [0] := by decide
  have ht : transCount ['a','b'] ['a','c'] [0] [0] = 0 := by decide
  simp +decide [jaroDistance, jaroList, hm, hs, ht, JARO_WEIGHT_STRING_A,
    JARO_WEIGHT_STRING_B, JARO_WEIGHT_TRANSPOSITIONS]
  norm_num

theorem jaro_ac_ab : jaroDistance "ac" "ab" = 2/3 := by
  have hm : matchPhase ['a','c'] ['a','b'] 0 = ⟨[true, false], [true, false], 1⟩ := by decide
  have hs : truePositions [true, false] = [0] := by decide
  have ht : transCount ['a','c'] ['a','b'] [0] [0] = 0 := by decide
  simp +decide [jaroDistance, jaroList, hm, hs, ht, JARO_WEIGHT_STRING_A,
    JARO_WEIGHT_STRING_B, JARO_WEIGHT_TRANSPOSITIONS]
  norm_num

theorem jaro_ab_ab : jaroDistance "ab" "ab" = 1 := by
  have hm : matchPhase ['a','b'] ['a','b'] 0 = ⟨[true, true], [true, true], 2⟩ := by decide
  have hs : truePositions [true, true] = [0, 1] := by decide
  have ht : transCount ['a','b'] ['a','b'] [0, 1] [0, 1] = 0 := by decide
  simp +decide [jaroDistance, jaroList, hm, hs, ht, JARO_WEIGHT_STRING_A,
    JARO_WEIGHT_STRING_B, JARO_WEIGHT_TRANSPOSITIONS]
  norm_num

theorem jaro_ac_ac : jaroDistance "ac" "ac" = 1 := by
  have hm : matchPhase ['a','c'] ['a','c'] 0 = ⟨[true, true], [true, true], 2⟩ := by decide
  have hs : truePositions [true, true] = [0, 1] := by decide
  have ht : transCount ['a','c'] ['a','c'] [0, 1] [0, 1] = 0 := by decide
  simp +decide [jaroDistance, jaroList, hm, hs, ht, JARO_WEIGHT_STRING_A,
    JARO_WEIGHT_STRING_B, JARO_WEIGHT_TRANSPOSITIONS]
  norm_num

theorem jw_ab_ac : jaroWinklerDistance "ab" "ac" = 2/3 := by
  unfold jaroWinklerDistance
  rw [jaro_ab_ac, if_neg (by norm_num [JARO_WINKLER_BOOST_THRESHOLD])]

theorem jw_ac_ab : jaroWinklerDistance "ac" "ab" = 2/3 := by
  unfold jaroWinklerDistance
  rw [jaro_ac_ab, if_neg (by norm_num [JARO_WINKLER_BOOST_THRESHOLD])]

theorem jw_ab_ab : jaroWinklerDistance "ab" "ab" = 1 := by
  unfold jaroWinklerDistance
  rw [jaro_ab_ab, if_pos (by norm_num [JARO_WINKLER_BOOST_THRESHOLD])]
  norm_num

theorem jw_ac_ac : jaroWinklerDistance "ac" "ac" = 1 := by
  unfold jaroWinklerDistance
  rw [jaro_ac_ac, if_pos (by norm_num [JARO_WINKLER_BOOST_THRESHOLD])]
  norm_num

/-- Witness for `findNewMedoid_spec` on a concrete two-element group. -/
theorem findNewMedoid_spec_witness :
    findNewMedoid (DistanceMatrix.build ["ab", "ac"] jaroWinklerDistance) ["ab", "ac"]
      = specNewMedoid (DistanceMatrix.build ["ab", "ac"] jaroWinklerDistance) ["ab", "ac"] := by
  apply findNewMedoid_spec
  · simp
  · decide
  · intro m hm
    simp only [List.mem_cons, List.not_mem_nil, or_false] at hm
    rcases hm with rfl | rfl
    · exact dist_val ["ab", "ac"] jaroWinklerDistance "ab" "ab" (by decide) (by decide) 1
        (by rw [jw_ab_ab]; exact round6_one) (by rw [jw_ab_ab]; exact round6_one)
    · exact dist_val ["ab", "ac"] jaroWinklerDistance "ac" "ac" (by decide) (by decide) 1
        (by rw [jw_ac_ac]; exact round6_one) (by rw [jw_ac_ac]; exact round6_one)

/-- Counterexample to C4 as stated: in the engine over
`["ab", "ab", "ac"]` with `k = 1` and the valid sample `["ac"]`, the group
`["ac", "ab", "ab"]` arises in the assignment step, and on it
`findNewMedoid` (which also counts each member's self-similarity, weighting
duplicated members) returns `"ab"`, while the element whose summed
similarity to every other member is maximal (ties to first occurrence) is
`"ac"`. -/
theorem findNewMedoid_spec_cex :
    IsSample ["ab", "ab", "ac"] 1 ["ac"] ∧
      assignPass (ClusterEngine.init 1 ["ab", "ab", "ac"]).distMat
          ["ab", "ab", "ac"] ["ac"] = [["ac", "ab", "ab"]] ∧
      findNewMedoid (ClusterEngine.init 1 ["ab", "ab", "ac"]).distMat
          ["ac", "ab", "ab"] = "ab" ∧
      specNewMedoid (ClusterEngine.init 1 ["ab", "ab", "ac"]).distMat
          ["ac", "ab", "ab"] = "ac" ∧
      ("ab" : String) ≠ "ac" := by
  have hdm : (ClusterEngine.init 1 ["ab", "ab", "ac"]).distMat
      = DistanceMatrix.build ["ab", "ab", "ac"] jaroWinklerDistance := rfl
  have hd1 : (DistanceMatrix.build ["ab", "ab", "ac"] jaroWinklerDistance).dist "ac" "ab"
      = 666667/1000000 :=
    dist_val _ _ _ _ (by decide) (by decide) _
      (by rw [jw_ac_ab]; exact round6_twothirds) (by rw [jw_ab_ac]; exact round6_twothirds)
  have hd2 : (DistanceMatrix.build ["ab", "ab", "ac"] jaroWinklerDistance).dist "ab" "ac"
      = 666667/1000000 :=
    dist_val _ _ _ _ (by decide) (by decide) _
      (by rw [jw_ab_ac]; exact round6_twothirds) (by rw [jw_ac_ab]; exact round6_twothirds)
  have hd3 : (DistanceMatrix.build ["ab", "ab", "ac"] jaroWinklerDistance).dist "ab" "ab" = 1 :=
    dist_val _ _ _ _ (by decide) (by decide) _
      (by rw [jw_ab_ab]; exact round6_one) (by rw [jw_ab_ab]; exact round6_one)
  have hd4 : (DistanceMatrix.build ["ab", "ab", "ac"] jaroWinklerDistance).dist "ac" "ac" = 1 :=
    dist_val _ _ _ _ (by decide) (by decide) _
      (by rw [jw_ac_ac]; exact round6_one) (by rw [jw_ac_ac]; exact round6_one)
  refine ⟨⟨rfl, [⟨2, by norm_num⟩], by simp, by simp⟩, ?_, ?_, ?_, by decide⟩
  · rw [hdm]
    simp +decide [assignPass, assignOne, hd1, pyMax, idxOfQ, appendAt]
  · rw [hdm]
    unfold findNewMedoid
    have hsums : ["ac", "ab", "ab"].map
        (fun m => ((["ac", "ab", "ab"].map
          (fun e => (DistanceMatrix.build ["ab", "ab", "ac"] jaroWinklerDistance).dist m e)).sum))
        = [2333334/1000000, 2666667/1000000, 2666667/1000000] := by
      simp [hd1, hd2, hd3, hd4]
      norm_num
    rw [hsums]
    have hp : pyMax [2333334/1000000, 2666667/1000000, 2666667/1000000]
        = (2666667/1000000 : ℚ) := by
      norm_num [pyMax, List.foldl_cons, List.foldl_nil, max_def]
    have hi : idxOfQ [2333334/1000000, 2666667/1000000, 2666667/1000000]
        (2666667/1000000 : ℚ) = 1 := by
      norm_num [idxOfQ]
    show ["ac", "ab", "ab"].getD
      (idxOfQ [2333334/1000000, 2666667/1000000, 2666667/1000000]
        (pyMax [2333334/1000000, 2666667/1000000, 2666667/1000000])) "" = "ab"
    rw [hp, hi]
    rfl
  · rw [hdm]
    unfold specNewMedoid
    have hfil : ["ac", "ab", "ab"].map
        (fun m => (((["ac", "ab", "ab"].filter (fun e => !decide (e = m))).map
          (fun e => (DistanceMatrix.build ["ab", "ab", "ac"] jaroWinklerDistance).dist m e)).sum))
        = [1333334/1000000, 666667/1000000, 666667/1000000] := by
      simp +decide [hd1, hd2]
      norm_num
    rw [hfil]
    have hp : pyMax [1333334/1000000, 666667/1000000, 666667/1000000]
        = (1333334/1000000 : ℚ) := by
      norm_num [pyMax, List.foldl_cons, List.foldl_nil, max_def]
    have hi : idxOfQ [1333334/1000000, 666667/1000000, 666667/1000000]
        (1333334/1000000 : ℚ) = 0 := by
      norm_num [idxOfQ]
    show ["ac", "ab", "ab"].getD
      (idxOfQ [1333334/1000000, 666667/1000000, 666667/1000000]
        (pyMax [1333334/1000000, 666667/1000000, 666667/1000000])) "" = "ac"
    rw [hp, hi]
    rfl

/-! ## C1: the clustering result is a partition -/

/-- Appending into one group preserves the number of groups. -/
theorem appendAt_length (gs : List (List String)) (i : ℕ) (e : String) :
    (appendAt gs i e).length = gs.length := by
  induction gs generalizing i with
  | nil => rfl
  | cons g gs ih =>
      cases i with
      | zero => rfl
      | succ n => simp [appendAt, ih]

/-- Appending into a group in range adds exactly that element to the
flattened members. -/
theorem appendAt_flatten_perm (gs : List (List String)) (i : ℕ) (e : String)
    (hi : i < gs.length) :
    (appendAt gs i e).flatten.Perm (gs.flatten ++ [e]) := by
  induction gs generalizing i with
  | nil => simp at hi
  | cons g gs ih =>
      cases i with
      | zero =>
          show ((g ++ [e]) :: gs).flatten.Perm ((g :: gs).flatten ++ [e])
          simp only [List.flatten_cons]
          rw [List.append_assoc, List.append_assoc]
          exact List.Perm.append_left g List.perm_append_comm
      | succ n =>
          show (g :: appendAt gs n e).flatten.Perm ((g :: gs).flatten ++ [e])
          simp only [List.flatten_cons]
          rw [List.append_assoc]
          exact List.Perm.append_left g (ih n (by simpa using hi))

/-- Appending into a group keeps every group non-empty. -/
theorem appendAt_nonempty (gs : List (List String)) (i : ℕ) (e : String)
    (h : ∀ g ∈ gs, g ≠ []) : ∀ g ∈ appendAt gs i e, g ≠ [] := by
  induction gs generalizing i with
  | nil => simp [appendAt]
  | cons g gs ih =>
      cases i with
      | zero =>
          intro g' hg'
          rcases List.mem_cons.mp hg' with h' | h'
          · rw [h']; simp
          · exact h g' (List.mem_cons_of_mem g h')
      | succ n =>
          intro g' hg'
          rcases List.mem_cons.mp hg' with h' | h'
          · exact h' ▸ h g (List.mem_cons_self g gs)
          · exact ih n (fun g hg => h g (List.mem_cons_of_mem _ hg)) g' h'

/-- Flattening the singleton seed groups recovers the medoid list. -/
theorem flatten_map_singleton (l : List String) :
    (l.map (fun m => ([m] : List String))).flatten = l := by
  induction l with
  | nil => rfl
  | cons x xs ih => simp [ih]

/-- The assignment fold: group count is preserved, the members grow by
exactly the non-medoid elements processed, and groups stay non-empty. -/
theorem assign_fold (dm : DistanceMatrix) (medoids : List String)
    (hk : medoids ≠ []) :
    ∀ (es : List String) (gs : List (List String)), gs.length = medoids.length →
      ((es.foldl (assignOne dm medoids) gs).length = medoids.length ∧
        (es.foldl (assignOne dm medoids) gs).flatten.Perm
          (gs.flatten ++ es.filter (fun e => !decide (e ∈ medoids))) ∧
        ((∀ g ∈ gs, g ≠ []) → ∀ g ∈ es.foldl (assignOne dm medoids) gs, g ≠ [])) := by
  intro es
  induction es with
  | nil =>
      intro gs hlen
      exact ⟨hlen, by simp, fun h => h⟩
  | cons e es ih =>
      intro gs hlen
      simp only [List.foldl_cons]
      by_cases he : e ∈ medoids
      · have hstep : assignOne dm medoids gs e = gs := by
          simp [assignOne, he]
        rw [hstep]
        obtain ⟨h1, h2, h3⟩ := ih gs hlen
        refine ⟨h1, ?_, h3⟩
        rw [List.filter_cons_of_neg (by simp [he])]
        exact h2
      · have hmapne : medoids.map (fun m => dm.dist m e) ≠ [] := by
          simpa using hk
        have hidx : idxOfQ (medoids.map (fun m => dm.dist m e))
            (pyMax (medoids.map (fun m => dm.dist m e))) < gs.length := by
          rw [hlen, ← List.length_map medoids (fun m => dm.dist m e)]
          exact idxOfQ_lt_length _ _ (pyMax_mem _ hmapne)
        have hstep : assignOne dm medoids gs e
            = appendAt gs (idxOfQ (medoids.map (fun m => dm.dist m e))
                (pyMax (medoids.map (fun m => dm.dist m e)))) e := by
          simp [assignOne, he]
        rw [hstep]
        obtain ⟨h1, h2, h3⟩ := ih
          (appendAt gs (idxOfQ (medoids.map (fun m => dm.dist m e))
            (pyMax (medoids.map (fun m => dm.dist m e)))) e)
          (by rw [appendAt_length]; exact hlen)
        refine ⟨h1, ?_, fun hne => h3 (appendAt_nonempty gs _ e hne)⟩
        rw [List.filter_cons_of_pos (by simp [he])]
        refine h2.trans ?_
        have hap := appendAt_flatten_perm gs _ e hidx
        refine (List.Perm.append_right _ hap).trans ?_
        rw [List.append_assoc]
        exact List.Perm.refl _

/-- The assignment pass produces one non-empty group per medoid; the members
are exactly the medoids plus the non-medoid elements. -/
theorem assignPass_props (dm : DistanceMatrix) (elems medoids : List String)
    (hk : medoids ≠ []) :
    (assignPass dm elems medoids).length = medoids.length ∧
      (assignPass dm elems medoids).flatten.Perm
        (medoids ++ elems.filter (fun e => !decide (e ∈ medoids))) ∧
      ∀ g ∈ assignPass dm elems medoids, g ≠ [] := by
  unfold assignPass
  obtain ⟨h1, h2, h3⟩ := assign_fold dm medoids hk elems (medoids.map (fun m => [m]))
    (by simp)
  refine ⟨h1, ?_, h3 ?_⟩
  · rw [flatten_map_singleton] at h2
    exact h2
  · intro g hg
    obtain ⟨m, _, hm⟩ := List.mem_map.mp hg
    rw [← hm]
    simp

/-- Distinct medoids drawn from a duplicate-free element list, plus the
remaining elements, are a permutation of the element list. -/
theorem medoid_filter_perm (elems medoids : List String) (hnd : elems.Nodup)
    (hmnd : medoids.Nodup) (hsub : ∀ m ∈ medoids, m ∈ elems) :
    (medoids ++ elems.filter (fun e => !decide (e ∈ medoids))).Perm elems := by
  rw [List.perm_iff_count]
  intro a
  rw [List.count_append]
  by_cases ha : a ∈ medoids
  · rw [List.count_eq_one_of_mem hmnd ha, List.count_eq_one_of_mem hnd (hsub a ha)]
    have hnot : a ∉ elems.filter (fun e => !decide (e ∈ medoids)) := by
      intro h
      have := (List.mem_filter.mp h).2
      simp [ha] at this
    rw [List.count_eq_zero_of_not_mem hnot]
  · rw [List.count_eq_zero_of_not_mem ha, List.count_filter]
    · simp
    · simp [ha]

/-- `findNewMedoid` returns a member of its (non-empty) group. -/
theorem findNewMedoid_mem (dm : DistanceMatrix) (g : List String) (hne : g ≠ []) :
    findNewMedoid dm g ∈ g := by
  unfold findNewMedoid
  have hne' : g.map (fun m => ((g.map (fun e => dm.dist m e)).sum)) ≠ [] := by
    simpa using hne
  have hidx : idxOfQ (g.map (fun m => ((g.map (fun e => dm.dist m e)).sum)))
      (pyMax (g.map (fun m => ((g.map (fun e => dm.dist m e)).sum)))) < g.length := by
    rw [← List.length_map g (fun m => ((g.map (fun e => dm.dist m e)).sum))]
    exact idxOfQ_lt_length _ _ (pyMax_mem _ hne')
  show g.getD (idxOfQ (g.map (fun m => ((g.map (fun e => dm.dist m e)).sum)))
    (pyMax (g.map (fun m => ((g.map (fun e => dm.dist m e)).sum))))) "" ∈ g
  rw [List.getD_eq_getElem g "" hidx]
  exact List.getElem_mem hidx

/-- Picking one member from each group of a flattened duplicate-free family
yields distinct picks. -/
theorem map_choose_nodup (f : List String → String) (groups : List (List String))
    (hflat : groups.flatten.Nodup) (hmem : ∀ g ∈ groups, f g ∈ g) :
    (groups.map f).Nodup := by
  induction groups with
  | nil => simp
  | cons g gs ih =>
      have hflat' : (g ++ gs.flatten).Nodup := by simpa using hflat
      have hsplit := List.nodup_append.mp hflat'
      rw [List.map_cons, List.nodup_cons]
      constructor
      · intro hmem'
        obtain ⟨g', hg', heq⟩ := List.mem_map.mp hmem'
        have h1 : f g ∈ g := hmem g (List.mem_cons_self g gs)
        have h2 : f g ∈ gs.flatten := by
          rw [← heq]
          exact List.mem_flatten.mpr ⟨g', hg', hmem g' (List.mem_cons_of_mem g hg')⟩
        exact hsplit.2.2 h1 h2
      · exact ih hsplit.2.1 (fun g' hg' => hmem g' (List.mem_cons_of_mem g hg'))

/-- Invariant of the convergence loop: whenever the loop exits, the engine
result is a materialized list of exactly `k` non-empty groups whose members
are a permutation of the element list. -/
theorem clusterLoop_partition (dm : DistanceMatrix) (elems : List String)
    (hnd : elems.Nodup) (k : ℕ) (hk : 1 ≤ k) :
    ∀ (fuel : ℕ) (last : Option (List String)) (current : List String)
      (res : Option (List (List String))),
      current.Nodup → current.length = k → (∀ m ∈ current, m ∈ elems) →
      (res = none → last = none) →
      (∀ gs, res = some gs → gs.length = k ∧ (∀ g ∈ gs, g ≠ []) ∧ gs.flatten.Perm elems) →
      ∀ out, clusterLoop dm elems fuel last current res = some out →
        ∃ gs, out = some gs ∧ gs.length = k ∧ (∀ g ∈ gs, g ≠ []) ∧
          gs.flatten.Perm elems := by
  have exit_case : ∀ (last : Option (List String)) (current : List String)
      (res : Option (List (List String))),
      current.length = k →
      (res = none → last = none) →
      (∀ gs, res = some gs → gs.length = k ∧ (∀ g ∈ gs, g ≠ []) ∧ gs.flatten.Perm elems) →
      counterOf last = (current : Multiset String) →
      ∃ gs, res = some gs ∧ gs.length = k ∧ (∀ g ∈ gs, g ≠ []) ∧
        gs.flatten.Perm elems := by
    intro last current res hlen h4 h5 hc
    cases res with
    | some gs => exact ⟨gs, rfl, h5 gs rfl⟩
    | none =>
        exfalso
        have hlast := h4 rfl
        subst hlast
        have : (current : Multiset String) = 0 := hc.symm
        have hcur : current = [] := by simpa using this
        rw [hcur] at hlen
        simp at hlen
        omega
  intro fuel
  induction fuel with
  | zero =>
      intro last current res _ h2 _ h4 h5 out hout
      unfold clusterLoop at hout
      by_cases hc : counterOf last = (current : Multiset String)
      · rw [if_pos hc] at hout
        obtain ⟨gs, hres, hrest⟩ := exit_case last current res h2 h4 h5 hc
        exact ⟨gs, by rw [← Option.some_inj.mp hout, hres], hrest⟩
      · rw [if_neg hc] at hout
        cases hout
  | succ fuel ih =>
      intro last current res h1 h2 h3 h4 h5 out hout
      unfold clusterLoop at hout
      by_cases hc : counterOf last = (current : Multiset String)
      · rw [if_pos hc] at hout
        obtain ⟨gs, hres, hrest⟩ := exit_case last current res h2 h4 h5 hc
        exact ⟨gs, by rw [← Option.some_inj.mp hout, hres], hrest⟩
      · rw [if_neg hc] at hout
        have hkne : current ≠ [] := by
          intro h
          rw [h] at h2
          simp at h2
          omega
        obtain ⟨hl, hperm0, hne⟩ := assignPass_props dm elems current hkne
        have hperm : (assignPass dm elems current).flatten.Perm elems :=
          hperm0.trans (medoid_filter_perm elems current hnd h1 h3)
        have hflatnd : (assignPass dm elems current).flatten.Nodup :=
          hperm.nodup_iff.mpr hnd
        refine ih (some current) ((assignPass dm elems current).map (findNewMedoid dm))
          (some (assignPass dm elems current)) ?_ ?_ ?_ ?_ ?_ out hout
        · exact map_choose_nodup (findNewMedoid dm) _ hflatnd
            (fun g hg => findNewMedoid_mem dm g (hne g hg))
        · rw [List.length_map, hl, h2]
        · intro m hm
          obtain ⟨g, hg, hgm⟩ := List.mem_map.mp hm
          have hmg : m ∈ g := hgm ▸ findNewMedoid_mem dm g (hne g hg)
          have : m ∈ (assignPass dm elems current).flatten :=
            List.mem_flatten.mpr ⟨g, hg, hmg⟩
          exact hperm.mem_iff.mp this
        · intro h
          cases h
        · intro gs hgs
          injection hgs with h
          subst h
          exact ⟨by rw [hl, h2], hne, hperm⟩

/-- C1 (amended with distinct elements): for a duplicate-free non-empty
element list and any `k` with `len(elems) ≥ k ≥ 1`, whenever `cluster()`
returns (for any valid random sample and any number of iterations), the
materialized result is exactly `k` non-empty groups whose members are a
permutation of the input elements — so every input element appears in
exactly one group, the groups are pairwise disjoint, and nothing is
introduced or dropped. -/
theorem cluster_partition (k : ℕ) (elems sample : List String) (fuel : ℕ)
    (hnd : elems.Nodup) (hk : 1 ≤ k) (hs : IsSample elems k sample)
    (st : ClusterEngine)
    (hrun : (ClusterEngine.init k elems).cluster sample fuel
      = some (ClusterOutcome.finished st)) :
    ∃ groups, st.result = some groups ∧ groups.length = k ∧
      (∀ g ∈ groups, g ≠ []) ∧ groups.flatten.Perm elems ∧
      (∀ g ∈ groups, g.Nodup) ∧ List.Pairwise List.Disjoint groups := by
  obtain ⟨hslen, idxs, hidnd, hseq⟩ := hs
  have hsnodup : sample.Nodup := by
    rw [hseq]
    exact List.Nodup.map (fun i j hij => List.nodup_iff_injective_get.mp hnd hij) hidnd
  have hsmem : ∀ m ∈ sample, m ∈ elems := by
    rw [hseq]
    intro m hm
    obtain ⟨i, _, rfl⟩ := List.mem_map.mp hm
    exact List.get_mem elems i.1 i.2
  have hne : elems ≠ [] := by
    intro h
    have : sample ≠ [] := by
      intro h'
      rw [h'] at hslen
      simp at hslen
      omega
    obtain ⟨m, hm⟩ := List.exists_mem_of_ne_nil sample this
    rw [h] at hsmem
    exact absurd (hsmem m hm) (List.not_mem_nil m)
  unfold ClusterEngine.cluster at hrun
  have hel : (ClusterEngine.init k elems).elems = elems := rfl
  rw [hel] at hrun
  rw [if_neg (by simp [hne])] at hrun
  cases hloop : clusterLoop (ClusterEngine.init k elems).distMat elems fuel none sample none with
  | none => rw [hloop] at hrun; cases hrun
  | some res =>
      rw [hloop] at hrun
      have hst : { ClusterEngine.init k elems with result := res } = st := by
        injection hrun with h
        injection h with h2
      obtain ⟨gs, hres, hlen, hgne, hperm⟩ :=
        clusterLoop_partition (ClusterEngine.init k elems).distMat elems hnd k hk fuel
          none sample none hsnodup hslen hsmem (fun _ => rfl)
          (fun gs h => by cases h) res hloop
      have hflatnd : gs.flatten.Nodup := hperm.nodup_iff.mpr hnd
      have hnodups := List.nodup_flatten.mp hflatnd
      refine ⟨gs, ?_, hlen, hgne, hperm, hnodups.1, hnodups.2⟩
      rw [← hst]
      show res = some gs
      exact hres

theorem jaro_a_b : jaroDistance "a" "b" = 0 := by
  have hm : matchPhase ['a'] ['b'] 0 = ⟨[false], [false], 0⟩ := by decide
  simp +decide [jaroDistance, jaroList, hm]

theorem jaro_b_a : jaroDistance "b" "a" = 0 := by
  have hm : matchPhase ['b'] ['a'] 0 = ⟨[false], [false], 0⟩ := by decide
  simp +decide [jaroDistance, jaroList, hm]

theorem jaro_a_a : jaroDistance "a" "a" = 1 := by
  have hm : matchPhase ['a'] ['a'] 0 = ⟨[true], [true], 1⟩ := by decide
  have hs : truePositions [true] = [0] := by decide
  have ht : transCount ['a'] ['a'] [0] [0] = 0 := by decide
  simp +decide [jaroDistance, jaroList, hm, hs, ht, JARO_WEIGHT_STRING_A,
    JARO_WEIGHT_STRING_B, JARO_WEIGHT_TRANSPOSITIONS]
  norm_num

theorem jaro_b_b : jaroDistance "b" "b" = 1 := by
  have hm : matchPhase ['b'] ['b'] 0 = ⟨[true], [true], 1⟩ := by decide
  have hs : truePositions [true] = [0] := by decide
  have ht : transCount ['b'] ['b'] [0] [0] = 0 := by decide
  simp +decide [jaroDistance, jaroList, hm, hs, ht, JARO_WEIGHT_STRING_A,
    JARO_WEIGHT_STRING_B, JARO_WEIGHT_TRANSPOSITIONS]
  norm_num

theorem jw_a_b : jaroWinklerDistance "a" "b" = 0 := by
  unfold jaroWinklerDistance
  rw [jaro_a_b, if_neg (by norm_num [JARO_WINKLER_BOOST_THRESHOLD])]

theorem jw_b_a : jaroWinklerDistance "b" "a" = 0 := by
  unfold jaroWinklerDistance
  rw [jaro_b_a, if_neg (by norm_num [JARO_WINKLER_BOOST_THRESHOLD])]

theorem jw_a_a : jaroWinklerDistance "a" "a" = 1 := by
  unfold jaroWinklerDistance
  rw [jaro_a_a, if_pos (by norm_num [JARO_WINKLER_BOOST_THRESHOLD])]
  norm_num

theorem jw_b_b : jaroWinklerDistance "b" "b" = 1 := by
  unfold jaroWinklerDistance
  rw [jaro_b_b, if_pos (by norm_num [JARO_WINKLER_BOOST_THRESHOLD])]
  norm_num

/-- Witness for `cluster_partition`: a concrete one-element run. -/
theorem cluster_partition_witness :
    ∃ groups,
      ({ ClusterEngine.init 1 ["a"] with result := some [["a"]] } : ClusterEngine).result
          = some groups ∧
        groups.length = 1 ∧ (∀ g ∈ groups, g ≠ []) ∧ groups.flatten.Perm ["a"] ∧
        (∀ g ∈ groups, g.Nodup) ∧ List.Pairwise List.Disjoint groups := by
  apply cluster_partition 1 ["a"] ["a"] 2 (by decide) (by decide)
    ⟨rfl, [⟨0, by decide⟩], by decide, rfl⟩
  have hpass : assignPass (ClusterEngine.init 1 ["a"]).distMat ["a"] ["a"] = [["a"]] := by
    simp [assignPass, assignOne]
  have hmed : findNewMedoid (ClusterEngine.init 1 ["a"]).distMat ["a"] = "a" := by
    unfold findNewMedoid
    simp [pyMax, idxOfQ]
  have hloop : clusterLoop (ClusterEngine.init 1 ["a"]).distMat ["a"] 2 none ["a"] none
      = some (some [["a"]]) := by
    unfold clusterLoop
    rw [if_neg (by decide)]
    show clusterLoop (ClusterEngine.init 1 ["a"]).distMat ["a"] 1 (some ["a"])
      ((assignPass (ClusterEngine.init 1 ["a"]).distMat ["a"] ["a"]).map
        (findNewMedoid (ClusterEngine.init 1 ["a"]).distMat))
      (some (assignPass (ClusterEngine.init 1 ["a"]).distMat ["a"] ["a"])) = _
    rw [hpass]
    simp only [List.map_cons, List.map_nil, hmed]
    unfold clusterLoop
    rw [if_pos (by decide)]
  show (ClusterEngine.init 1 ["a"]).cluster ["a"] 2 = _
  unfold ClusterEngine.cluster
  rw [if_neg (by decide)]
  show (match clusterLoop (ClusterEngine.init 1 ["a"]).distMat ["a"] 2 none ["a"] none with
    | none => none
    | some res => some (ClusterOutcome.finished
        { ClusterEngine.init 1 ["a"] with result := res })) = _
  rw [hloop]

/-- Counterexample to C1 as stated: with the duplicate-bearing input
`["a", "a", "b"]`, `k = 2` and the valid sample `["a", "a"]` (two distinct
positions holding equal values), `cluster()` converges to the groups
`[["a", "b"], ["a"]]`: the element `"a"` appears in both groups, so the
groups are not pairwise disjoint and do not partition the input. -/
theorem cluster_partition_cex :
    IsSample ["a", "a", "b"] 2 ["a", "a"] ∧
      (ClusterEngine.init 2 ["a", "a", "b"]).cluster ["a", "a"] 3
        = some (ClusterOutcome.finished
            { ClusterEngine.init 2 ["a", "a", "b"] with
                result := some [["a", "b"], ["a"]] }) ∧
      "a" ∈ (["a", "b"] : List String) ∧ "a" ∈ (["a"] : List String) := by
  have hdaa : (ClusterEngine.init 2 ["a", "a", "b"]).distMat.dist "a" "a" = 1 :=
    dist_val ["a", "a", "b"] jaroWinklerDistance "a" "a" (by decide) (by decide) 1
      (by rw [jw_a_a]; exact round6_one) (by rw [jw_a_a]; exact round6_one)
  have hdab : (ClusterEngine.init 2 ["a", "a", "b"]).distMat.dist "a" "b" = 0 :=
    dist_val ["a", "a", "b"] jaroWinklerDistance "a" "b" (by decide) (by decide) 0
      (by rw [jw_a_b]; exact round6_zero) (by rw [jw_b_a]; exact round6_zero)
  have hdba : (ClusterEngine.init 2 ["a", "a", "b"]).distMat.dist "b" "a" = 0 :=
    dist_val ["a", "a", "b"] jaroWinklerDistance "b" "a" (by decide) (by decide) 0
      (by rw [jw_b_a]; exact round6_zero) (by rw [jw_a_b]; exact round6_zero)
  have hdbb : (ClusterEngine.init 2 ["a", "a", "b"]).distMat.dist "b" "b" = 1 :=
    dist_val ["a", "a", "b"] jaroWinklerDistance "b" "b" (by decide) (by decide) 1
      (by rw [jw_b_b]; exact round6_one) (by rw [jw_b_b]; exact round6_one)
  have hpass : assignPass (ClusterEngine.init 2 ["a", "a", "b"]).distMat
      ["a", "a", "b"] ["a", "a"] = [["a", "b"], ["a"]] := by
    simp [assignPass, assignOne, hdab, pyMax, idxOfQ, appendAt]
  have hf1 : findNewMedoid (ClusterEngine.init 2 ["a", "a", "b"]).distMat ["a", "b"]
      = "a" := by
    unfold findNewMedoid
    simp [hdaa, hdab, hdba, hdbb, pyMax, idxOfQ]
  have hf2 : findNewMedoid (ClusterEngine.init 2 ["a", "a", "b"]).distMat ["a"]
      = "a" := by
    unfold findNewMedoid
    simp [pyMax, idxOfQ]
  have hloop : clusterLoop (ClusterEngine.init 2 ["a", "a", "b"]).distMat
      ["a", "a", "b"] 3 none ["a", "a"] none = some (some [["a", "b"], ["a"]]) := by
    unfold clusterLoop
    rw [if_neg (by decide)]
    show clusterLoop (ClusterEngine.init 2 ["a", "a", "b"]).distMat ["a", "a", "b"] 2
      (some ["a", "a"])
      ((assignPass (ClusterEngine.init 2 ["a", "a", "b"]).distMat
        ["a", "a", "b"] ["a", "a"]).map
          (findNewMedoid (ClusterEngine.init 2 ["a", "a", "b"]).distMat))
      (some (assignPass (ClusterEngine.init 2 ["a", "a", "b"]).distMat
        ["a", "a", "b"] ["a", "a"])) = _
    rw [hpass]
    simp only [List.map_cons, List.map_nil, hf1, hf2]
    unfold clusterLoop
    rw [if_pos (by decide)]
  refine ⟨⟨rfl, [⟨0, by norm_num⟩, ⟨1, by norm_num⟩], by decide, rfl⟩, ?_, by decide, by decide⟩
  unfold ClusterEngine.cluster
  rw [if_neg (by decide)]
  show (match clusterLoop (ClusterEngine.init 2 ["a", "a", "b"]).distMat
      ["a", "a", "b"] 3 none ["a", "a"] none with
    | none => none
    | some res => some (ClusterOutcome.finished
        { ClusterEngine.init 2 ["a", "a", "b"] with result := res })) = _
  rw [hloop]

/-! ## C5: range of jaroDistance -/

/-- Specification of a successful window search: the returned index lies in
the scanned range, is unmatched, and holds the sought character. -/
theorem findFrom_some (b : List Char) (bm : List Bool) (c : Char) :
    ∀ (n j0 j : ℕ), findFrom b bm c j0 n = some j →
      j0 ≤ j ∧ j < j0 + n ∧ bm.getD j false = false ∧ b.getD j 'A' = c := by
  intro n
  induction n with
  | zero => intro j0 j h; cases h
  | succ n ih =>
      intro j0 j h
      unfold findFrom at h
      by_cases hc : bm.getD j0 false = false ∧ b.getD j0 'A' = c
      · rw [if_pos hc] at h
        injection h with h
        subst h
        exact ⟨le_refl _, by omega, hc.1, hc.2⟩
      · rw [if_neg hc] at h
        obtain ⟨h1, h2, h3, h4⟩ := ih (j0 + 1) j h
        exact ⟨by omega, by omega, h3, h4⟩

/-- Setting an index does not change other indices' defaulted reads. -/
theorem getD_set_ne (l : List Bool) (i i' : ℕ) (x : Bool) (h : i ≠ i') :
    (l.set i x).getD i' false = l.getD i' false := by
  induction l generalizing i i' with
  | nil => rfl
  | cons y ys ih =>
      cases i with
      | zero =>
          cases i' with
          | zero => exact absurd rfl h
          | succ n => rfl
      | succ m =>
          cases i' with
          | zero => rfl
          | succ n =>
              show (ys.set m x).getD n false = ys.getD n false
              exact ih m n (by omega)

/-- Setting a fresh (false, in-range) position to true increases the count
of trues by one. -/
theorem count_true_set (l : List Bool) (i : ℕ) (hi : i < l.length)
    (hf : l.getD i false = false) :
    (l.set i true).count true = l.count true + 1 := by
  induction l generalizing i with
  | nil => simp at hi
  | cons y ys ih =>
      cases i with
      | zero =>
          have hy : y = false := hf
          subst hy
          simp [List.count_cons]
      | succ m =>
          have : (ys.set m true).count true = ys.count true + 1 :=
            ih m (by simpa using hi) hf
          simp [List.count_cons, this]
          cases y <;> simp <;> omega

/-- Unfolding equation for one step of the match loop. -/
theorem matchLoopAux_cons (b : List Char) (r : ℕ) (c : Char) (rest : List Char)
    (i : ℕ) (st : MatchState) :
    matchLoopAux b r (c :: rest) i st =
      if min (i + r + 1) b.length ≤ i - r then st
      else
        match findUnmatched b st.bM c (i - r) (min (i + r + 1) b.length) with
        | none => matchLoopAux b r rest (i + 1) st
        | some j =>
            matchLoopAux b r rest (i + 1)
              ⟨st.aM.set i true, st.bM.set j true, st.cnt + 1⟩ := rfl

/-- Counting invariants of the match loop: lengths are preserved and the
`char_matches` counter equals the number of `true` flags on each side. -/
theorem matchLoopAux_counts (b : List Char) (r : ℕ) :
    ∀ (rest : List Char) (i : ℕ) (st : MatchState),
      st.aM.length = i + rest.length →
      st.bM.length = b.length →
      (∀ i', i ≤ i' → st.aM.getD i' false = false) →
      st.cnt = st.aM.count true →
      st.cnt = st.bM.count true →
      ((matchLoopAux b r rest i st).aM.length = i + rest.length ∧
        (matchLoopAux b r rest i st).bM.length = b.length ∧
        (matchLoopAux b r rest i st).cnt = (matchLoopAux b r rest i st).aM.count true ∧
        (matchLoopAux b r rest i st).cnt = (matchLoopAux b r rest i st).bM.count true) := by
  intro rest
  induction rest with
  | nil =>
      intro i st h1 h2 _ h4 h5
      exact ⟨h1, h2, h4, h5⟩
  | cons c rest' ih =>
      intro i st h1 h2 h3 h4 h5
      rw [matchLoopAux_cons]
      by_cases hbr : min (i + r + 1) b.length ≤ i - r
      · rw [if_pos hbr]
        exact ⟨h1, h2, h4, h5⟩
      · rw [if_neg hbr]
        cases hfind : findUnmatched b st.bM c (i - r) (min (i + r + 1) b.length) with
        | none =>
            obtain ⟨g1, g2, g3, g4⟩ := ih (i + 1) st
              (by rw [h1, List.length_cons]; omega) h2
              (fun i' hi' => h3 i' (by omega)) h4 h5
            refine ⟨?_, g2, g3, g4⟩
            show (matchLoopAux b r rest' (i + 1) st).aM.length = i + (c :: rest').length
            rw [List.length_cons, g1]
            omega
        | some j =>
            obtain ⟨hj1, hj2, hj3, hj4⟩ := findFrom_some b st.bM c _ _ j hfind
            have hjlt : j < b.length := by
              have hlo : i - r < min (i + r + 1) b.length := by omega
              omega
            have hialt : i < st.aM.length := by rw [h1, List.length_cons]; omega
            have hset : (st.aM.set i true).count true = st.aM.count true + 1 :=
              count_true_set st.aM i hialt (h3 i (le_refl i))
            have hsetb : (st.bM.set j true).count true = st.bM.count true + 1 :=
              count_true_set st.bM j (by omega) hj3
            obtain ⟨g1, g2, g3, g4⟩ := ih (i + 1)
              ⟨st.aM.set i true, st.bM.set j true, st.cnt + 1⟩
              (by simp only [List.length_set]; rw [h1, List.length_cons]; omega)
              (by simp only [List.length_set]; exact h2)
              (fun i' hi' => by
                show (st.aM.set i true).getD i' false = false
                rw [getD_set_ne st.aM i i' true (by omega)]
                exact h3 i' (by omega))
              (by show st.cnt + 1 = _; rw [hset, h4])
              (by show st.cnt + 1 = _; rw [hsetb, h5])
            refine ⟨?_, g2, g3, g4⟩
            show (matchLoopAux b r rest' (i + 1)
              ⟨st.aM.set i true, st.bM.set j true, st.cnt + 1⟩).aM.length
                = i + (c :: rest').length
            rw [List.length_cons, g1]
            omega

/-- Structural unfolding of `truePositions` on a cons cell. -/
theorem truePositions_cons (x : Bool) (xs : List Bool) :
    truePositions (x :: xs)
      = (if x then [0] else []) ++ (truePositions xs).map Nat.succ := by
  unfold truePositions
  rw [List.length_cons, List.range_succ_eq_map, List.filter_cons, List.filter_map]
  have hcomp : ∀ j ∈ List.range xs.length,
      ((fun j => (x :: xs).getD j false) ∘ Nat.succ) j = xs.getD j false := fun j _ => rfl
  rw [List.filter_congr hcomp]
  cases x
  · simp
  · simp

/-- The number of recorded positions equals the number of `true` flags. -/
theorem truePositions_length (l : List Bool) : (truePositions l).length = l.count true := by
  induction l with
  | nil => rfl
  | cons x xs ih =>
      rw [truePositions_cons, List.length_append, List.length_map, ih, List.count_cons]
      cases x <;> simp <;> omega

/-- The invariants hold of the completed match phase. -/
theorem matchPhase_counts (a b : List Char) (r : ℕ) :
    (matchPhase a b r).aM.length = a.length ∧
      (matchPhase a b r).bM.length = b.length ∧
      (matchPhase a b r).cnt = (matchPhase a b r).aM.count true ∧
      (matchPhase a b r).cnt = (matchPhase a b r).bM.count true := by
  unfold matchPhase
  have hrep : ∀ i', (0 : ℕ) ≤ i' →
      (List.replicate a.length false).getD i' false = false := by
    intro i' _
    by_cases h : i' < a.length
    · rw [List.getD_eq_getElem _ _ (by simpa using h)]
      simp
    · rw [List.getD_eq_default]
      simpa using h
  have := matchLoopAux_counts b r a 0
    ⟨List.replicate a.length false, List.replicate b.length false, 0⟩
    (by simp) (by simp) hrep (by simp [List.count_replicate])
    (by simp [List.count_replicate])
  simpa using this

/-- C5: `jaroDistance` always lies in `[0, 1]`, and returns exactly `0`
whenever either input string is empty. -/
theorem jaro_in_range (a b : String) :
    (0 ≤ jaroDistance a b ∧ jaroDistance a b ≤ 1) ∧
      (a.length = 0 → jaroDistance a b = 0) ∧
      (b.length = 0 → jaroDistance a b = 0) := by
  have hempty : ∀ s t : List Char, s.length = 0 ∨ t.length = 0 → jaroList s t = 0 := by
    intro s t h
    unfold jaroList
    rw [if_pos h]
  refine ⟨?_, ?_, ?_⟩
  · unfold jaroDistance jaroList
    by_cases h0 : a.data.length = 0 ∨ b.data.length = 0
    · rw [if_pos h0]
      norm_num
    · rw [if_neg h0]
      push_neg at h0
      obtain ⟨ha0, hb0⟩ := h0
      by_cases hcnt : (matchPhase a.data b.data (max a.data.length b.data.length / 2 - 1)).cnt = 0
      · rw [if_pos hcnt]
        norm_num
      · rw [if_neg hcnt]
        obtain ⟨hLa, hLb, hca, hcb⟩ :=
          matchPhase_counts a.data b.data (max a.data.length b.data.length / 2 - 1)
        set st := matchPhase a.data b.data (max a.data.length b.data.length / 2 - 1)
        set t := transCount a.data b.data (truePositions st.aM) (truePositions st.bM) with ht
        have hmla : st.cnt ≤ a.data.length := by
          rw [hca, ← hLa]
          exact List.count_le_length true st.aM
        have hmlb : st.cnt ≤ b.data.length := by
          rw [hcb, ← hLb]
          exact List.count_le_length true st.bM
        have htm : st.cnt - t / 2 ≤ st.cnt := Nat.sub_le _ _
        have hM1 : 1 ≤ st.cnt := Nat.one_le_iff_ne_zero.mpr hcnt
        have hA : (0 : ℚ) < a.data.length := by
          exact_mod_cast Nat.pos_of_ne_zero ha0
        have hB : (0 : ℚ) < b.data.length := by
          exact_mod_cast Nat.pos_of_ne_zero hb0
        have hM : (0 : ℚ) < st.cnt := by exact_mod_cast hM1
        have hMA : (st.cnt : ℚ) ≤ a.data.length := by exact_mod_cast hmla
        have hMB : (st.cnt : ℚ) ≤ b.data.length := by exact_mod_cast hmlb
        have hTM : ((st.cnt - t / 2 : ℕ) : ℚ) ≤ st.cnt := by exact_mod_cast htm
        have hT0 : (0 : ℚ) ≤ ((st.cnt - t / 2 : ℕ) : ℚ) := by positivity
        rw [JARO_WEIGHT_STRING_A, JARO_WEIGHT_STRING_B, JARO_WEIGHT_TRANSPOSITIONS]
        constructor
        · positivity
        · have e1 : (1 : ℚ)/3 * st.cnt / a.data.length ≤ 1/3 := by
            rw [div_le_iff hA]
            nlinarith
          have e2 : (1 : ℚ)/3 * st.cnt / b.data.length ≤ 1/3 := by
            rw [div_le_iff hB]
            nlinarith
          have e3 : (1 : ℚ)/3 * ((st.cnt - t / 2 : ℕ) : ℚ) / st.cnt ≤ 1/3 := by
            rw [div_le_iff hM]
            nlinarith
          linarith
  · intro h
    have : a.data.length = 0 := h
    exact hempty a.data b.data (Or.inl this)
  · intro h
    have : b.data.length = 0 := h
    exact hempty a.data b.data (Or.inr this)

/-- Witness for `jaro_in_range` at concrete strings, with an empty first
input. -/
theorem jaro_in_range_witness :
    (0 ≤ jaroDistance "" "cat" ∧ jaroDistance "" "cat" ≤ 1) ∧
      jaroDistance "" "cat" = 0 :=
  ⟨(jaro_in_range "" "cat").1, (jaro_in_range "" "cat").2.1 rfl⟩

/-! ## C2: symmetry of the match loop -/

/-- Once the window has run past `b`, the breakless loop does nothing. -/
theorem matchLoopNB_past (b : List Char) (r : ℕ) :
    ∀ (rest : List Char) (i : ℕ) (st : MatchState), b.length ≤ i - r →
      matchLoopNB b r rest i st = st := by
  intro rest
  induction rest with
  | nil => intro i st _; rfl
  | cons c rest' ih =>
      intro i st h
      show (match findUnmatched b st.bM c (i - r) (min (i + r + 1) b.length) with
        | none => matchLoopNB b r rest' (i + 1) st
        | some j => matchLoopNB b r rest' (i + 1)
            ⟨st.aM.set i true, st.bM.set j true, st.cnt + 1⟩) = st
      have hempty : findUnmatched b st.bM c (i - r) (min (i + r + 1) b.length) = none := by
        unfold findUnmatched
        have : min (i + r + 1) b.length - (i - r) = 0 := by omega
        rw [this]
        rfl
      rw [hempty]
      exact ih (i + 1) st (by omega)

/-- The break in the real loop is an optimization: both loops agree. -/
theorem matchLoopAux_eq_NB (b : List Char) (r : ℕ) :
    ∀ (rest : List Char) (i : ℕ) (st : MatchState),
      matchLoopAux b r rest i st = matchLoopNB b r rest i st := by
  intro rest
  induction rest with
  | nil => intro i st; rfl
  | cons c rest' ih =>
      intro i st
      rw [matchLoopAux_cons]
      by_cases hbr : min (i + r + 1) b.length ≤ i - r
      · rw [if_pos hbr]
        have hpast : b.length ≤ i - r := by omega
        rw [matchLoopNB_past b r (c :: rest') i st hpast]
      · rw [if_neg hbr]
        show (match findUnmatched b st.bM c (i - r) (min (i + r + 1) b.length) with
          | none => matchLoopAux b r rest' (i + 1) st
          | some j => matchLoopAux b r rest' (i + 1)
              ⟨st.aM.set i true, st.bM.set j true, st.cnt + 1⟩) = _
        show _ = (match findUnmatched b st.bM c (i - r) (min (i + r + 1) b.length) with
          | none => matchLoopNB b r rest' (i + 1) st
          | some j => matchLoopNB b r rest' (i + 1)
              ⟨st.aM.set i true, st.bM.set j true, st.cnt + 1⟩)
        cases findUnmatched b st.bM c (i - r) (min (i + r + 1) b.length) with
        | none => exact ih (i + 1) st
        | some j => exact ih (i + 1) _

/-- A failed scan means no index in the range qualifies. -/
theorem findFrom_none (b : List Char) (bm : List Bool) (c : Char) :
    ∀ (n j0 : ℕ), findFrom b bm c j0 n = none →
      ∀ j, j0 ≤ j → j < j0 + n → ¬(bm.getD j false = false ∧ b.getD j 'A' = c) := by
  intro n
  induction n with
  | zero => intro j0 _ j h1 h2; omega
  | succ n ih =>
      intro j0 h j h1 h2
      unfold findFrom at h
      by_cases hc : bm.getD j0 false = false ∧ b.getD j0 'A' = c
      · rw [if_pos hc] at h; cases h
      · rw [if_neg hc] at h
        by_cases hj : j = j0
        · exact hj ▸ hc
        · exact ih (j0 + 1) h j (by omega) (by omega)

/-- A successful scan returns the first qualifying index. -/
theorem findFrom_first (b : List Char) (bm : List Bool) (c : Char) :
    ∀ (n j0 j : ℕ), findFrom b bm c j0 n = some j →
      ∀ j', j0 ≤ j' → j' < j → ¬(bm.getD j' false = false ∧ b.getD j' 'A' = c) := by
  intro n
  induction n with
  | zero => intro j0 j h; cases h
  | succ n ih =>
      intro j0 j h j' h1 h2
      unfold findFrom at h
      by_cases hc : bm.getD j0 false = false ∧ b.getD j0 'A' = c
      · rw [if_pos hc] at h
        injection h with h
        omega
      · rw [if_neg hc] at h
        by_cases hj : j' = j0
        · exact hj ▸ hc
        · exact ih (j0 + 1) j h j' (by omega) h2

/-- A failed pick means no listed position qualifies. -/
theorem pickB_none (r i : ℕ) (m : List ℕ) :
    ∀ B, pickB r i m B = none →
      ∀ j ∈ B, ¬(j ∉ m ∧ i ≤ j + r ∧ j ≤ i + r) := by
  intro B
  induction B with
  | nil => intro _ j hj; cases hj
  | cons j0 B ih =>
      intro h j hj
      unfold pickB at h
      by_cases hc : j0 ∉ m ∧ i ≤ j0 + r ∧ j0 ≤ i + r
      · rw [if_pos hc] at h; cases h
      · rw [if_neg hc] at h
        rcases List.mem_cons.mp hj with h' | h'
        · exact h' ▸ hc
        · exact ih h j h'

/-- A successful pick returns a qualifying member, and (for an increasing
list) the least one. -/
theorem pickB_some (r i : ℕ) (m : List ℕ) :
    ∀ B, ∀ j, pickB r i m B = some j →
      (j ∈ B ∧ j ∉ m ∧ i ≤ j + r ∧ j ≤ i + r) ∧
        (B.Pairwise (· < ·) →
          ∀ j' ∈ B, j' < j → ¬(j' ∉ m ∧ i ≤ j' + r ∧ j' ≤ i + r)) := by
  intro B
  induction B with
  | nil => intro j h; cases h
  | cons j0 B ih =>
      intro j h
      unfold pickB at h
      by_cases hc : j0 ∉ m ∧ i ≤ j0 + r ∧ j0 ≤ i + r
      · rw [if_pos hc] at h
        injection h with h
        subst h
        refine ⟨⟨List.mem_cons_self j0 B, hc⟩, ?_⟩
        intro hsort j' hj' hlt
        rcases List.mem_cons.mp hj' with h' | h'
        · omega
        · have := (List.pairwise_cons.mp hsort).1 j' h'
          omega
      · rw [if_neg hc] at h
        obtain ⟨hmem, hmin⟩ := ih j h
        refine ⟨⟨List.mem_cons_of_mem j0 hmem.1, hmem.2⟩, ?_⟩
        intro hsort j' hj' hlt
        rcases List.mem_cons.mp hj' with h' | h'
        · exact h' ▸ hc
        · exact hmin (List.pairwise_cons.mp hsort).2 j' h' hlt

/-- Position lists are strictly increasing. -/
theorem pos_sorted (c : Char) (s : List Char) : (pos c s).Pairwise (· < ·) :=
  List.Pairwise.sublist (List.filter_sublist _) (List.pairwise_lt_range s.length)

/-- Membership in a position list. -/
theorem pos_mem (c : Char) (s : List Char) (j : ℕ) :
    j ∈ pos c s ↔ j < s.length ∧ s.getD j 'A' = c := by
  unfold pos
  rw [List.mem_filter, List.mem_range]
  simp

/-- The imperative window search agrees with the per-character pick over the
position list of the sought character, with the matched positions read off
the `b_match` flags. -/
theorem findUnmatched_eq_pickB (b : List Char) (bm : List Bool) (c : Char)
    (i r : ℕ) :
    findUnmatched b bm c (i - r) (min (i + r + 1) b.length)
      = pickB r i ((pos c b).filter (fun j => bm.getD j false)) (pos c b) := by
  have hqual : ∀ j, (j ∈ pos c b ∧ j ∉ (pos c b).filter (fun j => bm.getD j false) ∧
      i ≤ j + r ∧ j ≤ i + r) ↔
      (i - r ≤ j ∧ j < min (i + r + 1) b.length ∧
        bm.getD j false = false ∧ b.getD j 'A' = c) := by
    intro j
    constructor
    · rintro ⟨hmem, hnm, h1, h2⟩
      obtain ⟨hjl, hjc⟩ := (pos_mem c b j).mp hmem
      have hbm : bm.getD j false = false := by
        by_contra hbm
        exact hnm (List.mem_filter.mpr ⟨hmem, by simpa using hbm⟩)
      exact ⟨by omega, by omega, hbm, hjc⟩
    · rintro ⟨h1, h2, hbm, hjc⟩
      have hmem : j ∈ pos c b := (pos_mem c b j).mpr ⟨by omega, hjc⟩
      refine ⟨hmem, ?_, by omega, by omega⟩
      intro hin
      have := (List.mem_filter.mp hin).2
      rw [hbm] at this
      cases this
  cases hf : findUnmatched b bm c (i - r) (min (i + r + 1) b.length) with
  | some j =>
      obtain ⟨hj1, hj2, hj3, hj4⟩ := findFrom_some b bm c _ _ j hf
      have hj2' : j < min (i + r + 1) b.length := by omega
      have hfirst := findFrom_first b bm c _ _ j hf
      cases hp : pickB r i ((pos c b).filter (fun j => bm.getD j false)) (pos c b) with
      | none =>
          exfalso
          obtain ⟨hmem, hnm, hn1, hn2⟩ := (hqual j).mpr ⟨hj1, hj2', hj3, hj4⟩
          exact pickB_none r i _ (pos c b) hp j hmem ⟨hnm, hn1, hn2⟩
      | some j' =>
          obtain ⟨⟨hmem', hnm', hn1', hn2'⟩, hmin'⟩ := pickB_some r i _ (pos c b) j' hp
          obtain ⟨h1', h2', hbm', hjc'⟩ := (hqual j').mp ⟨hmem', hnm', hn1', hn2'⟩
          congr 1
          by_contra hne
          rcases Nat.lt_or_ge j' j with hlt | hge
          · exact hfirst j' (by omega) hlt ⟨hbm', hjc'⟩
          · have hlt : j < j' := by omega
            obtain ⟨hmem, hnm, hn1, hn2⟩ := (hqual j).mpr ⟨hj1, hj2', hj3, hj4⟩
            exact hmin' (pos_sorted c b) j hmem hlt ⟨hnm, hn1, hn2⟩
  | none =>
      cases hp : pickB r i ((pos c b).filter (fun j => bm.getD j false)) (pos c b) with
      | none => rfl
      | some j' =>
          exfalso
          obtain ⟨⟨hmem', hnm', hn1', hn2'⟩, _⟩ := pickB_some r i _ (pos c b) j' hp
          obtain ⟨h1', h2', hbm', hjc'⟩ := (hqual j').mp ⟨hmem', hnm', hn1', hn2'⟩
          have hnone := findFrom_none b bm c _ _ hf j' h1' (by omega)
          exact hnone ⟨hbm', hjc'⟩

/-- The pick depends on the accumulator only through membership. -/
theorem pickB_equiv (r i : ℕ) (m₁ m₂ : List ℕ) :
    ∀ B, (∀ j ∈ B, (j ∈ m₁ ↔ j ∈ m₂)) → pickB r i m₁ B = pickB r i m₂ B := by
  intro B
  induction B with
  | nil => intro _; rfl
  | cons j0 B ih =>
      intro h
      unfold pickB
      have hiff : (j0 ∉ m₁ ∧ i ≤ j0 + r ∧ j0 ≤ i + r) ↔
          (j0 ∉ m₂ ∧ i ≤ j0 + r ∧ j0 ≤ i + r) := by
        rw [h j0 (List.mem_cons_self j0 B)]
      rw [if_congr hiff rfl (ih (fun j hj => h j (List.mem_cons_of_mem j0 hj)))]

/-- Unfolding equation for `greedy` on a cons cell. -/
theorem greedy_cons (r : ℕ) (B : List ℕ) (i : ℕ) (A m : List ℕ) :
    greedy r B (i :: A) m
      = match pickB r i m B with
        | some j => (i, j) :: greedy r B A (j :: m)
        | none => greedy r B A m := rfl

/-- Unfolding equation for `greedyM` on a cons cell. -/
theorem greedyM_cons (r : ℕ) (B : List ℕ) (i : ℕ) (A m : List ℕ) :
    greedyM r B (i :: A) m
      = match pickB r i m B with
        | some j => greedyM r B A (j :: m)
        | none => greedyM r B A m := rfl

/-- The greedy matching depends on the accumulator only through
membership. -/
theorem greedy_equiv (r : ℕ) (B : List ℕ) :
    ∀ A m₁ m₂, (∀ j ∈ B, (j ∈ m₁ ↔ j ∈ m₂)) → greedy r B A m₁ = greedy r B A m₂ := by
  intro A
  induction A with
  | nil => intro m₁ m₂ _; rfl
  | cons i A ih =>
      intro m₁ m₂ h
      rw [greedy_cons, greedy_cons, pickB_equiv r i m₁ m₂ B h]
      cases hp : pickB r i m₂ B with
      | none => exact ih m₁ m₂ h
      | some j =>
          have h' : ∀ j' ∈ B, (j' ∈ j :: m₁ ↔ j' ∈ j :: m₂) := by
            intro j' hj'
            simp only [List.mem_cons]
            rw [h j' hj']
          show (i, j) :: greedy r B A (j :: m₁) = (i, j) :: greedy r B A (j :: m₂)
          rw [ih (j :: m₁) (j :: m₂) h']

/-- Splitting the processed positions splits the matched pairs. -/
theorem greedy_append (r : ℕ) (B : List ℕ) :
    ∀ A₁ A₂ m, greedy r B (A₁ ++ A₂) m
      = greedy r B A₁ m ++ greedy r B A₂ (greedyM r B A₁ m) := by
  intro A₁
  induction A₁ with
  | nil => intro A₂ m; rfl
  | cons i A₁ ih =>
      intro A₂ m
      rw [List.cons_append, greedy_cons, greedy_cons, greedyM_cons]
      cases hp : pickB r i m B with
      | none => exact ih A₂ m
      | some j =>
          show (i, j) :: greedy r B (A₁ ++ A₂) (j :: m)
            = (i, j) :: (greedy r B A₁ (j :: m) ++ greedy r B A₂ (greedyM r B A₁ (j :: m)))
          rw [ih A₂ (j :: m)]

/-- Membership in the final accumulator: an old entry or a newly matched
second component. -/
theorem greedyM_mem (r : ℕ) (B : List ℕ) :
    ∀ A m j, j ∈ greedyM r B A m ↔ j ∈ m ∨ ∃ p ∈ greedy r B A m, p.2 = j := by
  intro A
  induction A with
  | nil =>
      intro m j
      simp [greedyM, greedy]
  | cons i A ih =>
      intro m j
      rw [greedyM_cons, greedy_cons]
      cases hp : pickB r i m B with
      | none =>
          show j ∈ greedyM r B A m ↔ j ∈ m ∨ ∃ p ∈ greedy r B A m, p.2 = j
          exact ih m j
      | some j0 =>
          show j ∈ greedyM r B A (j0 :: m)
            ↔ j ∈ m ∨ ∃ p ∈ (i, j0) :: greedy r B A (j0 :: m), p.2 = j
          rw [ih (j0 :: m) j]
          constructor
          · rintro (h | ⟨p, hp', hj⟩)
            · rcases List.mem_cons.mp h with h' | h'
              · exact Or.inr ⟨(i, j0), List.mem_cons_self _ _, h'.symm⟩
              · exact Or.inl h'
            · exact Or.inr ⟨p, List.mem_cons_of_mem _ hp', hj⟩
          · rintro (h | ⟨p, hp', hj⟩)
            · exact Or.inl (List.mem_cons_of_mem _ h)
            · rcases List.mem_cons.mp hp' with h' | h'
              · rw [h'] at hj
                exact Or.inl (hj ▸ List.mem_cons_self _ _)
              · exact Or.inr ⟨p, h', hj⟩

/-- First components of greedy pairs come from the processed list. -/
theorem greedy_fst_mem (r : ℕ) (B : List ℕ) :
    ∀ A m p, p ∈ greedy r B A m → p.1 ∈ A := by
  intro A
  induction A with
  | nil => intro m p hp; cases hp
  | cons i A ih =>
      intro m p hp
      rw [greedy_cons] at hp
      cases hq : pickB r i m B with
      | none =>
          rw [hq] at hp
          exact List.mem_cons_of_mem i (ih m p hp)
      | some j =>
          rw [hq] at hp
          rcases List.mem_cons.mp hp with h | h
          · rw [h]
            exact List.mem_cons_self i A
          · exact List.mem_cons_of_mem i (ih (j :: m) p h)

/-- If every processed position is far from every listed position, nothing
matches. -/
theorem greedy_far_nil (r : ℕ) (B : List ℕ) :
    ∀ A m, (∀ i ∈ A, ∀ j ∈ B, ¬(i ≤ j + r ∧ j ≤ i + r)) → greedy r B A m = [] := by
  intro A
  induction A with
  | nil => intro m _; rfl
  | cons i A ih =>
      intro m h
      rw [greedy_cons]
      have hp : pickB r i m B = none := by
        cases hq : pickB r i m B with
        | none => rfl
        | some j =>
            exfalso
            obtain ⟨⟨hmem, _, h1, h2⟩, _⟩ := pickB_some r i m B j hq
            exact h i (List.mem_cons_self i A) j hmem ⟨h1, h2⟩
      rw [hp]
      exact ih m (fun i' hi' => h i' (List.mem_cons_of_mem i hi'))

/-- `symMatch` with an empty second list is empty. -/
theorem symMatch_nil_right (r : ℕ) (A : List ℕ) : symMatch r A [] = [] := by
  cases A <;> simp [symMatch]

/-- Unfolding equation for `symMatch` on two cons cells. -/
theorem symMatch_cons (r i j : ℕ) (A B : List ℕ) :
    symMatch r (i :: A) (j :: B)
      = if i + r < j then symMatch r A (j :: B)
        else if j + r < i then symMatch r (i :: A) B
        else (i, j) :: symMatch r A B := by
  rw [symMatch]

/-- No positions available: the greedy match is empty. -/
theorem greedy_nil_B (r : ℕ) : ∀ (A m : List ℕ), greedy r [] A m = [] := by
  intro A
  induction A with
  | nil => intro m; rfl
  | cons i A ih => intro m; exact ih m

/-- Every listed position beyond the window: the pick fails. -/
theorem pickB_far (r i : ℕ) (m : List ℕ) :
    ∀ B, (∀ j ∈ B, i + r < j) → pickB r i m B = none := by
  intro B
  induction B with
  | nil => intro _; rfl
  | cons j0 B ih =>
      intro h
      unfold pickB
      have hj0 := h j0 (List.mem_cons_self j0 B)
      rw [if_neg (by rintro ⟨_, _, h2⟩; omega),
        ih (fun j hj => h j (List.mem_cons_of_mem j0 hj))]

/-- A position strictly below every processed index's window can be dropped
from the candidate list. -/
theorem greedy_drop_far_b (r j : ℕ) (B' : List ℕ) :
    ∀ (A m : List ℕ), (∀ i' ∈ A, j + r < i') →
      greedy r (j :: B') A m = greedy r B' A m := by
  intro A
  induction A with
  | nil => intro m _; rfl
  | cons i A ih =>
      intro m h
      have hi := h i (List.mem_cons_self i A)
      have hpick : pickB r i m (j :: B') = pickB r i m B' := by
        show (if j ∉ m ∧ i ≤ j + r ∧ j ≤ i + r then some j else pickB r i m B') = _
        rw [if_neg (by rintro ⟨_, h1, _⟩; omega)]
      rw [greedy_cons, greedy_cons, hpick]
      cases hp : pickB r i m B' with
      | none =>
          exact ih m (fun i' hi' => h i' (List.mem_cons_of_mem i hi'))
      | some j' =>
          show (i, j') :: greedy r (j :: B') A (j' :: m)
            = (i, j') :: greedy r B' A (j' :: m)
          rw [ih (j' :: m) (fun i' hi' => h i' (List.mem_cons_of_mem i hi'))]

/-- An already-matched position can be dropped from the candidate list. -/
theorem greedy_drop_matched (r j : ℕ) (B' : List ℕ) :
    ∀ (A m : List ℕ), j ∈ m →
      greedy r (j :: B') A m = greedy r B' A m := by
  intro A
  induction A with
  | nil => intro m _; rfl
  | cons i A ih =>
      intro m hm
      have hpick : pickB r i m (j :: B') = pickB r i m B' := by
        show (if j ∉ m ∧ i ≤ j + r ∧ j ≤ i + r then some j else pickB r i m B') = _
        rw [if_neg (by rintro ⟨h1, _, _⟩; exact h1 hm)]
      rw [greedy_cons, greedy_cons, hpick]
      cases hp : pickB r i m B' with
      | none => exact ih m hm
      | some j' =>
          show (i, j') :: greedy r (j :: B') A (j' :: m)
            = (i, j') :: greedy r B' A (j' :: m)
          rw [ih (j' :: m) (List.mem_cons_of_mem j' hm)]

/-- On strictly increasing position lists the imperative greedy matching
coincides with the manifestly symmetric head-to-head description. -/
theorem greedy_eq_symMatch (r : ℕ) :
    ∀ (n : ℕ) (A B : List ℕ), A.length + B.length ≤ n →
      A.Pairwise (· < ·) → B.Pairwise (· < ·) →
      greedy r B A [] = symMatch r A B := by
  intro n
  induction n with
  | zero =>
      intro A B hn _ _
      have hA : A = [] := List.length_eq_zero.mp (by omega)
      subst hA
      rw [greedy, symMatch]
  | succ n ih =>
      intro A B hn hA hB
      cases A with
      | nil => rw [greedy, symMatch]
      | cons i A' =>
          cases B with
          | nil => rw [greedy_nil_B, symMatch_nil_right]
          | cons j B' =>
              rw [symMatch_cons]
              have hAtail := (List.pairwise_cons.mp hA).2
              have hBtail := (List.pairwise_cons.mp hB).2
              by_cases h1 : i + r < j
              · rw [if_pos h1]
                have hpick : pickB r i [] (j :: B') = none := by
                  apply pickB_far
                  intro j' hj'
                  rcases List.mem_cons.mp hj' with h' | h'
                  · omega
                  · have := (List.pairwise_cons.mp hB).1 j' h'
                    omega
                rw [greedy_cons, hpick]
                exact ih A' (j :: B') (by simp at hn ⊢; omega) hAtail hB
              · rw [if_neg h1]
                by_cases h2 : j + r < i
                · rw [if_pos h2]
                  have hfar : ∀ i' ∈ i :: A', j + r < i' := by
                    intro i' hi'
                    rcases List.mem_cons.mp hi' with h' | h'
                    · omega
                    · have := (List.pairwise_cons.mp hA).1 i' h'
                      omega
                  rw [greedy_drop_far_b r j B' (i :: A') [] hfar]
                  exact ih (i :: A') B' (by simp at hn ⊢; omega) hA hBtail
                · rw [if_neg h2]
                  have hpick : pickB r i [] (j :: B') = some j := by
                    unfold pickB
                    rw [if_pos ⟨List.not_mem_nil j, by omega, by omega⟩]
                  rw [greedy_cons, hpick]
                  show (i, j) :: greedy r (j :: B') A' [j] = _
                  rw [greedy_drop_matched r j B' A' [j] (List.mem_cons_self j []),
                    greedy_equiv r B' A' [j] [] (by
                      intro j' hj'
                      have := (List.pairwise_cons.mp hB).1 j' hj'
                      simp only [List.mem_cons, List.not_mem_nil, iff_false]
                      rintro (h' | h')
                      · omega
                      · exact h'),
                    ih A' B' (by simp at hn ⊢; omega) hAtail hBtail]

/-- Swapping the two position lists transposes the symmetric matching. -/
theorem symMatch_swap (r : ℕ) :
    ∀ (n : ℕ) (A B : List ℕ), A.length + B.length ≤ n →
      symMatch r B A = (symMatch r A B).map (fun p => (p.2, p.1)) := by
  intro n
  induction n with
  | zero =>
      intro A B hn
      have hA : A = [] := List.length_eq_zero.mp (by omega)
      have hB : B = [] := List.length_eq_zero.mp (by omega)
      subst hA; subst hB
      rw [symMatch]
      rfl
  | succ n ih =>
      intro A B hn
      cases A with
      | nil => rw [symMatch_nil_right, symMatch]; rfl
      | cons i A' =>
          cases B with
          | nil => rw [symMatch_nil_right, symMatch]; rfl
          | cons j B' =>
              rw [symMatch_cons, symMatch_cons]
              by_cases h1 : i + r < j
              · have h2 : ¬ j + r < i := by omega
                rw [if_neg h2, if_pos h1, if_pos h1]
                exact ih A' (j :: B') (by simp at hn ⊢; omega)
              · by_cases h2 : j + r < i
                · rw [if_pos h2, if_neg h1, if_pos h2]
                  exact ih (i :: A') B' (by simp at hn ⊢; omega)
                · rw [if_neg h2, if_neg h1, if_neg h1, if_neg h2, List.map_cons,
                    ih A' B' (by simp at hn ⊢; omega)]

/-- Extending the processed prefix by one position appends that position to
its character class. -/
theorem posBelow_succ (c : Char) (a : List Char) (i : ℕ) :
    posBelow c a (i + 1)
      = posBelow c a i ++ (if a.getD i 'A' = c then [i] else []) := by
  unfold posBelow
  rw [List.range_succ, List.filter_append]
  congr 1
  by_cases h : a.getD i 'A' = c
  · rw [if_pos h, List.filter_cons, if_pos (decide_eq_true h), List.filter_nil]
  · rw [if_neg h, List.filter_cons,
      if_neg (fun hh => h (of_decide_eq_true hh)), List.filter_nil]

/-- The full prefix gives the whole position list. -/
theorem posBelow_full (c : Char) (a : List Char) :
    posBelow c a a.length = pos c a := rfl

/-- Class step, matched: when position `i` carries class `c'` and its pick
succeeds, the class matching gains one pair. -/
theorem classGreedy_succ_hit (a b : List Char) (r i : ℕ) (c' : Char)
    (h : a.getD i 'A' = c') (j : ℕ)
    (hp : pickB r i (greedyM r (pos c' b) (posBelow c' a i) []) (pos c' b) = some j) :
    greedy r (pos c' b) (posBelow c' a (i + 1)) []
      = greedy r (pos c' b) (posBelow c' a i) [] ++ [(i, j)] := by
  rw [posBelow_succ, if_pos h, greedy_append, greedy_cons, hp]
  rfl

/-- Class step, unmatched: when position `i` carries class `c'` but its pick
fails, the class matching is unchanged. -/
theorem classGreedy_succ_miss (a b : List Char) (r i : ℕ) (c' : Char)
    (h : a.getD i 'A' = c')
    (hp : pickB r i (greedyM r (pos c' b) (posBelow c' a i) []) (pos c' b) = none) :
    greedy r (pos c' b) (posBelow c' a (i + 1)) []
      = greedy r (pos c' b) (posBelow c' a i) [] := by
  rw [posBelow_succ, if_pos h, greedy_append, greedy_cons, hp]
  exact List.append_nil _

/-- Class step, other class: position `i` does not carry class `c'`, so the
class matching is unchanged. -/
theorem classGreedy_succ_other (a b : List Char) (r i : ℕ) (c' : Char)
    (h : ¬ a.getD i 'A' = c') :
    greedy r (pos c' b) (posBelow c' a (i + 1)) []
      = greedy r (pos c' b) (posBelow c' a i) [] := by
  rw [posBelow_succ, if_neg h, List.append_nil]

/-- Simulation of the match loop by the per-class greedy matchings: at every
point the `a_match`/`b_match` flags mark exactly the endpoints of the pairs
that the greedy matching of each character class forms over the processed
prefix, and on termination the flags are characterized by the complete
per-class matchings. -/
theorem matchLoopNB_inv (a b : List Char) (r : ℕ) :
    ∀ (rest : List Char) (i : ℕ) (st : MatchState),
      i + rest.length = a.length →
      (∀ k, rest.getD k 'A' = a.getD (i + k) 'A') →
      st.aM.length = a.length →
      st.bM.length = b.length →
      (∀ i', (st.aM.getD i' false = true ↔
        ∃ j, (i', j) ∈ greedy r (pos (a.getD i' 'A') b)
          (posBelow (a.getD i' 'A') a i) [])) →
      (∀ j, (st.bM.getD j false = true ↔
        ∃ i', (i', j) ∈ greedy r (pos (b.getD j 'A') b)
          (posBelow (b.getD j 'A') a i) [])) →
      ((matchLoopNB b r rest i st).aM.length = a.length ∧
       (matchLoopNB b r rest i st).bM.length = b.length ∧
       (∀ i', ((matchLoopNB b r rest i st).aM.getD i' false = true ↔
         ∃ j, (i', j) ∈ greedy r (pos (a.getD i' 'A') b)
           (pos (a.getD i' 'A') a) [])) ∧
       (∀ j, ((matchLoopNB b r rest i st).bM.getD j false = true ↔
         ∃ i', (i', j) ∈ greedy r (pos (b.getD j 'A') b)
           (pos (b.getD j 'A') a) []))) := by
  intro rest
  induction rest with
  | nil =>
      intro i st hlen _ h3 h4 h5 h6
      have hi : i = a.length := by simpa using hlen
      subst hi
      exact ⟨h3, h4, h5, h6⟩
  | cons c rest' ih =>
      intro i st hlen hchars h3 h4 h5 h6
      have hia : i < a.length := by
        rw [List.length_cons] at hlen
        omega
      have hc : c = a.getD i 'A' := by
        have := hchars 0
        simpa using this
      have hlen' : (i + 1) + rest'.length = a.length := by
        rw [List.length_cons] at hlen
        omega
      have hchars' : ∀ k, rest'.getD k 'A' = a.getD (i + 1 + k) 'A' := by
        intro k
        have h := hchars (k + 1)
        rw [List.getD_cons_succ] at h
        rw [h]
        congr 1
        omega
      have hfind : findUnmatched b st.bM c (i - r) (min (i + r + 1) b.length)
          = pickB r i (greedyM r (pos c b) (posBelow c a i) []) (pos c b) := by
        rw [findUnmatched_eq_pickB]
        apply pickB_equiv
        intro j' hj'
        have hcls : b.getD j' 'A' = c := ((pos_mem c b j').mp hj').2
        rw [List.mem_filter]
        constructor
        · rintro ⟨_, hflag⟩
          have hex := (h6 j').mp hflag
          rw [hcls] at hex
          obtain ⟨i'', hi''⟩ := hex
          exact (greedyM_mem r (pos c b) (posBelow c a i) [] j').mpr
            (Or.inr ⟨(i'', j'), hi'', rfl⟩)
        · intro hmem
          rcases (greedyM_mem r (pos c b) (posBelow c a i) [] j').mp hmem with h' | h'
          · cases h'
          · obtain ⟨⟨p1, p2⟩, hp, hp2⟩ := h'
            have hp2' : p2 = j' := hp2
            refine ⟨hj', (h6 j').mpr ?_⟩
            rw [hcls]
            exact ⟨p1, by rw [← hp2']; exact hp⟩
      cases hp : pickB r i (greedyM r (pos c b) (posBelow c a i) []) (pos c b) with
      | none =>
          have hstep : matchLoopNB b r (c :: rest') i st
              = matchLoopNB b r rest' (i + 1) st := by
            show (match findUnmatched b st.bM c (i - r) (min (i + r + 1) b.length) with
              | none => matchLoopNB b r rest' (i + 1) st
              | some j => matchLoopNB b r rest' (i + 1)
                  ⟨st.aM.set i true, st.bM.set j true, st.cnt + 1⟩) = _
            rw [hfind, hp]
          rw [hstep]
          apply ih (i + 1) st hlen' hchars' h3 h4
          · intro i'
            by_cases hcc : a.getD i 'A' = a.getD i' 'A'
            · have hp' : pickB r i (greedyM r (pos (a.getD i' 'A') b)
                  (posBelow (a.getD i' 'A') a i) []) (pos (a.getD i' 'A') b) = none := by
                rw [← hcc, ← hc]
                exact hp
              rw [classGreedy_succ_miss a b r i (a.getD i' 'A') hcc hp']
              exact h5 i'
            · rw [classGreedy_succ_other a b r i (a.getD i' 'A') hcc]
              exact h5 i'
          · intro j'
            by_cases hcc : a.getD i 'A' = b.getD j' 'A'
            · have hp' : pickB r i (greedyM r (pos (b.getD j' 'A') b)
                  (posBelow (b.getD j' 'A') a i) []) (pos (b.getD j' 'A') b) = none := by
                rw [← hcc, ← hc]
                exact hp
              rw [classGreedy_succ_miss a b r i (b.getD j' 'A') hcc hp']
              exact h6 j'
            · rw [classGreedy_succ_other a b r i (b.getD j' 'A') hcc]
              exact h6 j'
      | some j =>
          obtain ⟨⟨hjmem, _, _, _⟩, _⟩ :=
            pickB_some r i (greedyM r (pos c b) (posBelow c a i) []) (pos c b) j hp
          obtain ⟨hjlt, hjc⟩ := (pos_mem c b j).mp hjmem
          have hstep : matchLoopNB b r (c :: rest') i st
              = matchLoopNB b r rest' (i + 1)
                  ⟨st.aM.set i true, st.bM.set j true, st.cnt + 1⟩ := by
            show (match findUnmatched b st.bM c (i - r) (min (i + r + 1) b.length) with
              | none => matchLoopNB b r rest' (i + 1) st
              | some j => matchLoopNB b r rest' (i + 1)
                  ⟨st.aM.set i true, st.bM.set j true, st.cnt + 1⟩) = _
            rw [hfind, hp]
          rw [hstep]
          have hpa : pickB r i (greedyM r (pos (a.getD i 'A') b)
              (posBelow (a.getD i 'A') a i) []) (pos (a.getD i 'A') b) = some j := by
            rw [← hc]
            exact hp
          apply ih (i + 1) ⟨st.aM.set i true, st.bM.set j true, st.cnt + 1⟩ hlen' hchars'
            (by simp only [List.length_set]; exact h3)
            (by simp only [List.length_set]; exact h4)
          · intro i'
            by_cases hii : i' = i
            · rw [hii]
              have hset : (st.aM.set i true).getD i false = true := by
                rw [List.getD_eq_getElem _ _ (by rw [List.length_set, h3]; exact hia)]
                simp [List.getElem_set]
              rw [hset, classGreedy_succ_hit a b r i (a.getD i 'A') rfl j hpa]
              constructor
              · intro _
                exact ⟨j, List.mem_append_right _ (List.mem_singleton.mpr rfl)⟩
              · intro _
                rfl
            · rw [getD_set_ne st.aM i i' true (fun h => hii h.symm)]
              by_cases hcc : a.getD i 'A' = a.getD i' 'A'
              · have hp' : pickB r i (greedyM r (pos (a.getD i' 'A') b)
                    (posBelow (a.getD i' 'A') a i) []) (pos (a.getD i' 'A') b)
                    = some j := by
                  rw [← hcc, ← hc]
                  exact hp
                rw [classGreedy_succ_hit a b r i (a.getD i' 'A') hcc j hp', h5 i']
                constructor
                · rintro ⟨j', hj'⟩
                  exact ⟨j', List.mem_append_left _ hj'⟩
                · rintro ⟨j', hj'⟩
                  rcases List.mem_append.mp hj' with h' | h'
                  · exact ⟨j', h'⟩
                  · exact absurd (congrArg Prod.fst (List.mem_singleton.mp h')) hii
              · rw [classGreedy_succ_other a b r i (a.getD i' 'A') hcc]
                exact h5 i'
          · intro j'
            by_cases hjj : j' = j
            · rw [hjj]
              have hset : (st.bM.set j true).getD j false = true := by
                rw [List.getD_eq_getElem _ _ (by rw [List.length_set, h4]; exact hjlt)]
                simp [List.getElem_set]
              rw [hset, hjc, classGreedy_succ_hit a b r i c hc.symm j hp]
              constructor
              · intro _
                exact ⟨i, List.mem_append_right _ (List.mem_singleton.mpr rfl)⟩
              · intro _
                rfl
            · rw [getD_set_ne st.bM j j' true (fun h => hjj h.symm)]
              by_cases hcc : a.getD i 'A' = b.getD j' 'A'
              · have hp' : pickB r i (greedyM r (pos (b.getD j' 'A') b)
                    (posBelow (b.getD j' 'A') a i) []) (pos (b.getD j' 'A') b)
                    = some j := by
                  rw [← hcc, ← hc]
                  exact hp
                rw [classGreedy_succ_hit a b r i (b.getD j' 'A') hcc j hp', h6 j']
                constructor
                · rintro ⟨i'', hi''⟩
                  exact ⟨i'', List.mem_append_left _ hi''⟩
                · rintro ⟨i'', hi''⟩
                  rcases List.mem_append.mp hi'' with h' | h'
                  · exact ⟨i'', h'⟩
                  · exact absurd (congrArg Prod.snd (List.mem_singleton.mp h')) hjj
              · rw [classGreedy_succ_other a b r i (b.getD j' 'A') hcc]
                exact h6 j'

/-- Flag characterization of the completed match phase: a position is
flagged exactly when the greedy matching of its character class pairs it. -/
theorem matchPhase_flags (a b : List Char) (r : ℕ) :
    (∀ i', ((matchPhase a b r).aM.getD i' false = true ↔
      ∃ j, (i', j) ∈ greedy r (pos (a.getD i' 'A') b) (pos (a.getD i' 'A') a) [])) ∧
    (∀ j, ((matchPhase a b r).bM.getD j false = true ↔
      ∃ i', (i', j) ∈ greedy r (pos (b.getD j 'A') b) (pos (b.getD j 'A') a) [])) := by
  have hrep : ∀ (n i' : ℕ), (List.replicate n false).getD i' false = false := by
    intro n i'
    by_cases h : i' < n
    · rw [List.getD_eq_getElem _ _ (by simpa using h)]
      simp
    · rw [List.getD_eq_default]
      simpa using h
  have h := matchLoopNB_inv a b r a 0
    ⟨List.replicate a.length false, List.replicate b.length false, 0⟩
    (by simp) (fun k => by simp)
    (by simp) (by simp)
    (fun i' => by
      show (List.replicate a.length false).getD i' false = true ↔ _
      rw [hrep]
      constructor
      · intro hF
        exact absurd hF Bool.false_ne_true
      · rintro ⟨j, hj⟩
        exact absurd hj (List.not_mem_nil _))
    (fun j => by
      show (List.replicate b.length false).getD j false = true ↔ _
      rw [hrep]
      constructor
      · intro hF
        exact absurd hF Bool.false_ne_true
      · rintro ⟨i', hi'⟩
        exact absurd hi' (List.not_mem_nil _))
  rw [matchPhase, matchLoopAux_eq_NB]
  exact ⟨h.2.2.1, h.2.2.2⟩

/-- Two boolean lists of equal length with equal defaulted reads are
equal. -/
theorem bool_getD_ext (l₁ l₂ : List Bool) (hlen : l₁.length = l₂.length)
    (h : ∀ i, l₁.getD i false = l₂.getD i false) : l₁ = l₂ := by
  apply List.ext_getElem hlen
  intro i h₁ h₂
  have hi := h i
  rwa [List.getD_eq_getElem l₁ false h₁, List.getD_eq_getElem l₂ false h₂] at hi

/-- Booleans agreeing as propositions are equal. -/
theorem bool_eq_of_iff : ∀ (x y : Bool), (x = true ↔ y = true) → x = y := by
  decide

/-- Membership under a component swap. -/
theorem mem_map_swap (p : ℕ × ℕ) (L : List (ℕ × ℕ)) :
    p ∈ L.map (fun q => (q.2, q.1)) ↔ (p.2, p.1) ∈ L := by
  rw [List.mem_map]
  constructor
  · rintro ⟨⟨q1, q2⟩, hq, hqp⟩
    rw [← hqp]
    exact hq
  · intro hp
    exact ⟨(p.2, p.1), hp, rfl⟩

/-- Swapping the argument lists transposes each class matching. -/
theorem classGreedy_swap (a b : List Char) (r : ℕ) (c : Char) :
    greedy r (pos c a) (pos c b) []
      = (greedy r (pos c b) (pos c a) []).map (fun q => (q.2, q.1)) := by
  rw [greedy_eq_symMatch r ((pos c b).length + (pos c a).length) (pos c b) (pos c a)
      le_rfl (pos_sorted c b) (pos_sorted c a),
    greedy_eq_symMatch r ((pos c a).length + (pos c b).length) (pos c a) (pos c b)
      le_rfl (pos_sorted c a) (pos_sorted c b),
    symMatch_swap r ((pos c a).length + (pos c b).length) (pos c a) (pos c b) le_rfl]

/-- Swapping the input strings swaps the two flag arrays of the match
phase. -/
theorem matchPhase_swap (a b : List Char) (r : ℕ) :
    (matchPhase a b r).aM = (matchPhase b a r).bM ∧
    (matchPhase a b r).bM = (matchPhase b a r).aM := by
  constructor
  · apply bool_getD_ext
    · rw [(matchPhase_counts a b r).1, (matchPhase_counts b a r).2.1]
    · intro i
      have h1 := (matchPhase_flags a b r).1 i
      have h2 := (matchPhase_flags b a r).2 i
      rw [classGreedy_swap a b r (a.getD i 'A')] at h2
      apply bool_eq_of_iff
      rw [h1, h2]
      constructor
      · rintro ⟨j, hj⟩
        exact ⟨j, (mem_map_swap (j, i) _).mpr hj⟩
      · rintro ⟨i', hi'⟩
        exact ⟨i', (mem_map_swap (i', i) _).mp hi'⟩
  · apply bool_getD_ext
    · rw [(matchPhase_counts a b r).2.1, (matchPhase_counts b a r).1]
    · intro j
      have h1 := (matchPhase_flags a b r).2 j
      have h2 := (matchPhase_flags b a r).1 j
      rw [classGreedy_swap a b r (b.getD j 'A')] at h2
      apply bool_eq_of_iff
      rw [h1, h2]
      constructor
      · rintro ⟨i', hi'⟩
        exact ⟨i', (mem_map_swap (j, i') _).mpr hi'⟩
      · rintro ⟨j', hj'⟩
        exact ⟨j', (mem_map_swap (j, j') _).mp hj'⟩

/-- The match count is symmetric in the two strings. -/
theorem matchPhase_cnt_swap (a b : List Char) (r : ℕ) :
    (matchPhase a b r).cnt = (matchPhase b a r).cnt := by
  rw [(matchPhase_counts a b r).2.2.2, (matchPhase_counts b a r).2.2.1,
    (matchPhase_swap a b r).2]

/-- Zipping in the opposite order swaps the components. -/
theorem zip_swap_eq (P : List ℕ) :
    ∀ Q : List ℕ, Q.zip P = (P.zip Q).map (fun q => (q.2, q.1)) := by
  induction P with
  | nil =>
      intro Q
      cases Q <;> rfl
  | cons x P ih =>
      intro Q
      cases Q with
      | nil => rfl
      | cons y Q =>
          rw [List.zip_cons_cons, List.zip_cons_cons, List.map_cons, ih Q]

/-- The transposition count is symmetric: swapping the strings together
with their matched-position lists leaves it unchanged. -/
theorem transCount_swap (a b : List Char) (P Q : List ℕ) :
    transCount b a Q P = transCount a b P Q := by
  unfold transCount
  rw [zip_swap_eq P Q, List.filter_map, List.length_map]
  congr 1
  apply List.filter_congr
  intro p _
  show (decide (¬ (b.getD p.2 'A' = a.getD p.1 'A')))
    = (decide (¬ (a.getD p.1 'A' = b.getD p.2 'A')))
  exact decide_eq_decide.mpr (not_congr eq_comm)

/-- The Jaro distance over character lists is symmetric. -/
theorem jaroList_comm (a b : List Char) : jaroList a b = jaroList b a := by
  simp only [jaroList]
  by_cases h0 : a.length = 0 ∨ b.length = 0
  · rw [if_pos h0, if_pos (Or.symm h0)]
  · rw [if_neg h0, if_neg (fun h => h0 (Or.symm h))]
    rw [Nat.max_comm b.length a.length]
    rw [← matchPhase_cnt_swap a b (max a.length b.length / 2 - 1)]
    by_cases hc0 : (matchPhase a b (max a.length b.length / 2 - 1)).cnt = 0
    · rw [if_pos hc0, if_pos hc0]
    · rw [if_neg hc0, if_neg hc0]
      rw [← (matchPhase_swap a b (max a.length b.length / 2 - 1)).1,
        ← (matchPhase_swap a b (max a.length b.length / 2 - 1)).2]
      rw [transCount_swap a b
        (truePositions (matchPhase a b (max a.length b.length / 2 - 1)).aM)
        (truePositions (matchPhase a b (max a.length b.length / 2 - 1)).bM)]
      unfold JARO_WEIGHT_STRING_A JARO_WEIGHT_STRING_B JARO_WEIGHT_TRANSPOSITIONS
      ring

/-- The common-prefix scan is symmetric. -/
theorem leadingMatch_comm : ∀ (n : ℕ) (A B : List Char),
    leadingMatch A B n = leadingMatch B A n := by
  intro n
  induction n with
  | zero => intro A B; cases A <;> cases B <;> rfl
  | succ n ih =>
      intro A B
      cases A with
      | nil => cases B <;> rfl
      | cons c cs =>
          cases B with
          | nil => rfl
          | cons d ds =>
              show (if c = d then leadingMatch cs ds n + 1 else 0)
                = (if d = c then leadingMatch ds cs n + 1 else 0)
              by_cases h : c = d
              · rw [if_pos h, if_pos h.symm, ih cs ds]
              · rw [if_neg h, if_neg (fun h' => h h'.symm)]

/-- The Jaro-Winkler distance is symmetric. -/
theorem jaroWinklerDistance_comm (a b : String) :
    jaroWinklerDistance a b = jaroWinklerDistance b a := by
  simp only [jaroWinklerDistance]
  have hd : jaroDistance a b = jaroDistance b a := jaroList_comm a.data b.data
  rw [hd, leadingMatch_comm JARO_WINKLER_PREFIX_SIZE a.data b.data]

/-- C2: for all strings `a` and `b` (including empty strings and strings of
differing lengths), `jaroDistance(a, b) = jaroDistance(b, a)` and
`jaroWinklerDistance(a, b) = jaroWinklerDistance(b, a)`. -/
theorem jaro_jw_comm (a b : String) :
    jaroDistance a b = jaroDistance b a ∧
      jaroWinklerDistance a b = jaroWinklerDistance b a :=
  ⟨jaroList_comm a.data b.data, jaroWinklerDistance_comm a b⟩
